import Mathlib

/-!
# gwbasic2c: typed expression core (`src/ast/expression.cpp`)

A shallow embedding of the expression nodes, the two castability tables, cast
insertion (`castOrThrow`) and overload resolution (`retrieveFunctionExpression`),
followed by theorems about them.

Conventions of the embedding

* `std::unique_ptr<Expression>` trees are values of the inductive type
  `ast.Expression`; the `type` member fixed by each constructor is the function
  `ast.Expression.type`.
* `gw::logic::BY_FUNCTION_NAME` (declared outside `expression.cpp`) is a parameter
  `reg : gw.logic.Registry`; `const gw::logic::File*` is modelled by the value of
  the pointed-to record.
* `throw std::invalid_argument(msg)` is `Outcome.thrown` carrying a structured
  `ast.Error` that records which of the four `throw` sites fired and the values
  its message is built from.
* `castOrThrow` and `retrieveFunctionExpression` call each other; the embedding
  bounds the nesting depth of conversion calls by a `fuel` argument and reports
  `Outcome.diverged` when the bound is exhausted.
-/

namespace gw

/-- The enumeration `gw::Type`. -/
inductive GwType where
  | INT | FLOAT | DOUBLE | STRING
  | INT_REF | FLOAT_REF | DOUBLE_REF | STRING_REF
  | VOID
  deriving DecidableEq, Repr, Fintype

namespace logic

/-- The record `gw::logic::File`: one registered signature. -/
structure File where
  name : String
  argumentTypes : List GwType
  returnType : GwType
  deriving DecidableEq, Repr

/-- The table `gw::logic::BY_FUNCTION_NAME`: `none` when `count(name) == 0`,
otherwise the candidates in registry order. -/
abbrev Registry := String → Option (List File)

end logic

namespace core

/-- The core library modules named in `expression.cpp`
(`gw::core::vector`, `gw::core::print`, `gw::core::input`). -/
inductive Module where
  | vector | print | input
  deriving DecidableEq, Repr

end core

end gw

namespace ast

open gw

/-- Modelled from the spec: `isReference` is declared outside `expression.cpp`;
the reference types are `INT_REF`, `FLOAT_REF`, `DOUBLE_REF`, `STRING_REF`. -/
def isReference : GwType → Bool
  | .INT_REF | .FLOAT_REF | .DOUBLE_REF | .STRING_REF => true
  | _ => false

/-- The four `throw std::invalid_argument` sites of `expression.cpp`. -/
inductive Error where
  /-- Thrown with the message "Function <name> is not found". -/
  | FunctionNotFound (name : String)
  /-- Thrown with the message "Function <name> with required signature is not found". -/
  | SignatureNotFound (name : String)
  /-- Thrown with the message "Cannot cast <source> to <target>". -/
  | CastUnavailable (source target : GwType)
  /-- Thrown with the message "Expected reference, found <type>". -/
  | InvalidReferenceArgument (found : GwType)
  deriving DecidableEq, Repr

/-- What a call does: return a value, throw, recurse deeper than the fuel, or
reach an `assert(false)`. -/
inductive Outcome (α : Type) where
  | returned (a : α)
  | thrown (e : Error)
  /-- The nesting of calls exceeded the fuel. -/
  | diverged
  /-- An `assert(false)` was reached. -/
  | aborted
  deriving DecidableEq, Repr

/-- `ast::castableImplicitly`. -/
def castableImplicitly (sourceType targetType : GwType) : Bool :=
  if sourceType = targetType then true
  else
    match targetType with
    | .DOUBLE =>
      match sourceType with
      | .DOUBLE_REF | .FLOAT | .FLOAT_REF | .INT | .INT_REF => true
      | _ => false
    | .FLOAT =>
      match sourceType with
      | .FLOAT_REF | .INT | .INT_REF => true
      | _ => false
    | .INT => decide (sourceType = .INT_REF)
    | .STRING => decide (sourceType = .STRING_REF)
    | _ => false

/-- `ast::castableExplicitly`. -/
def castableExplicitly (sourceType targetType : GwType) : Bool :=
  match targetType with
  | .INT =>
    match sourceType with
    | .FLOAT | .FLOAT_REF | .DOUBLE | .DOUBLE_REF => true
    | _ => false
  | .FLOAT =>
    match sourceType with
    | .DOUBLE | .DOUBLE_REF => true
    | _ => false
  | _ => false

/-- The members of `ast::ConstExpression`: the type and the precomputed text. -/
structure ConstExpression where
  type : GwType
  valueToPrint : String
  deriving DecidableEq, Repr

/-- The accumulator `ast::ProgramInfo`: three `std::set`s. -/
structure ProgramInfo where
  variableDefinitions : Finset String
  coreFiles : Finset core.Module
  logicFiles : Finset logic.File
  deriving DecidableEq

/-- `ast::ConstExpression::provideInfo`: nothing to provide. -/
def ConstExpression.provideInfo (_ : ConstExpression) (programInfo : ProgramInfo) : ProgramInfo :=
  programInfo

/-- The members of `ast::VariableExpression`. The constructor's
`assert(isReference(type))` is `VariableExpression.ctor`. -/
structure VariableExpression where
  name : String
  type : GwType
  deriving DecidableEq, Repr

/-- `ast::VariableExpression::VariableExpression`: `none` when the assertion fails. -/
def VariableExpression.ctor (name : String) (type : GwType) : Option VariableExpression :=
  if isReference type then some ⟨name, type⟩ else none

/-- `ast::VariableExpression::getPrintableType`; `none` is the `assert(false)` branch. -/
def VariableExpression.getPrintableType (v : VariableExpression) : Option String :=
  match v.type with
  | .INT_REF => some "gw_int"
  | .FLOAT_REF => some "float"
  | .DOUBLE_REF => some "double"
  | .STRING_REF => some "std::string"
  | _ => none

/-- `ast::VariableExpression::getPrintableName`; `none` is the `assert(false)` branch. -/
def VariableExpression.getPrintableName (v : VariableExpression) : Option String :=
  match v.type with
  | .INT_REF => some ("_" ++ v.name ++ "_i")
  | .FLOAT_REF => some ("_" ++ v.name ++ "_f")
  | .DOUBLE_REF => some ("_" ++ v.name ++ "_d")
  | .STRING_REF => some ("_" ++ v.name ++ "_s")
  | _ => none

/-- `ast::VariableExpression::getPrintableDefaultValue`. -/
def VariableExpression.getPrintableDefaultValue (v : VariableExpression) : String :=
  if v.type = .STRING_REF then "\"\"" else "0"

/-- The node classes derived from `ast::Expression`, one constructor per class,
with the members each class stores. -/
inductive Expression where
  | const (c : ConstExpression)
  | variableRef (v : VariableExpression)
  | vectorDim (variable_ : VariableExpression) (new_sizes : List Expression)
  | vectorGetElement (variable_ : VariableExpression) (indexes : List Expression)
  | function (logicFile : logic.File) (argumentList : List Expression)
  | casted (expression : Expression) (type : GwType)
  | printStmt (expressions : List Expression) (printNewLine : Bool)
      (newLineExpression : ConstExpression)
  | input (prompt : Expression) (expressions : List Expression)

/-- The `type` member, as each constructor's `Expression(...)` initialiser sets it. -/
def Expression.type : Expression → GwType
  | .const c => c.type
  | .variableRef v => v.type
  | .vectorDim _ _ => .VOID
  | .vectorGetElement variable_ _ => variable_.type
  | .function logicFile _ => logicFile.returnType
  | .casted _ type => type
  | .printStmt _ _ _ => .VOID
  | .input _ _ => .VOID

mutual
/-- The `provideInfo` overrides; `none` when an `assert(false)` is reached. -/
def provideInfo : Expression → ProgramInfo → Option ProgramInfo
  | .const c, programInfo => some (c.provideInfo programInfo)
  | .variableRef v, programInfo =>
    match v.getPrintableType, v.getPrintableName with
    | some ty, some nm =>
      some { programInfo with
        variableDefinitions := insert (ty ++ " " ++ nm ++ " = " ++ v.getPrintableDefaultValue)
          programInfo.variableDefinitions }
    | _, _ => none
  | .vectorDim variable_ new_sizes, programInfo =>
    match variable_.getPrintableType, variable_.getPrintableName with
    | some ty, some nm =>
      provideInfoEach new_sizes
        { programInfo with
          variableDefinitions :=
            insert ("std::vector<gw_int> " ++ nm ++ "i = \x7b \x7d")
              (insert ("std::vector<" ++ ty ++ "> " ++ nm ++ "v = \x7b \x7d")
                programInfo.variableDefinitions)
          coreFiles := insert core.Module.vector programInfo.coreFiles }
    | _, _ => none
  | .vectorGetElement variable_ indexes, programInfo =>
    match variable_.getPrintableType, variable_.getPrintableName with
    | some ty, some nm =>
      provideInfoEach indexes
        { programInfo with
          variableDefinitions :=
            insert ("std::vector<gw_int> " ++ nm ++ "i = \x7b \x7d")
              (insert ("std::vector<" ++ ty ++ "> " ++ nm ++ "v = \x7b \x7d")
                programInfo.variableDefinitions)
          coreFiles := insert core.Module.vector programInfo.coreFiles }
    | _, _ => none
  | .function logicFile argumentList, programInfo =>
    provideInfoEach argumentList
      { programInfo with logicFiles := insert logicFile programInfo.logicFiles }
  | .casted expression _, programInfo => provideInfo expression programInfo
  | .printStmt expressions printNewLine newLineExpression, programInfo =>
    match provideInfoEach expressions programInfo with
    | some p =>
      let q := { p with coreFiles := insert core.Module.print p.coreFiles }
      some (if printNewLine then newLineExpression.provideInfo q else q)
    | none => none
  | .input prompt expressions, programInfo =>
    match provideInfo prompt programInfo with
    | some p =>
      match provideInfoEach expressions p with
      | some q => some { q with coreFiles := insert core.Module.input q.coreFiles }
      | none => none
    | none => none
/-- The loops `for (auto& child : children) child->provideInfo(programInfo)`. -/
def provideInfoEach : List Expression → ProgramInfo → Option ProgramInfo
  | [], programInfo => some programInfo
  | child :: rest, programInfo =>
    match provideInfo child programInfo with
    | some p => provideInfoEach rest p
    | none => none
end

mutual
/-- The `print` overrides, returning the text written to the stream;
`none` when an `assert(false)` is reached. -/
def print : Expression → Option String
  | .const c => some c.valueToPrint
  | .variableRef v => v.getPrintableName
  | .vectorDim variable_ new_sizes =>
    match variable_.getPrintableName, printEach new_sizes with
    | some nm, some parts =>
      some ("dim(" ++ nm ++ "v," ++ nm ++ "i,\x7b" ++ ",".intercalate parts ++ "\x7d)")
    | _, _ => none
  | .vectorGetElement variable_ indexes =>
    match variable_.getPrintableName, printEach indexes with
    | some nm, some parts =>
      some ("get(" ++ nm ++ "v," ++ nm ++ "i,\x7b" ++ ",".intercalate parts ++ "\x7d)")
    | _, _ => none
  | .function logicFile argumentList =>
    match printEach argumentList with
    | some parts => some (logicFile.name ++ "(" ++ ",".intercalate parts ++ ")")
    | none => none
  | .casted expression _ => print expression
  | .printStmt expressions printNewLine newLineExpression =>
    match printEach expressions with
    | some parts =>
      some ("print(\x7b" ++ ",".intercalate parts ++
        (if printNewLine then
          (if !expressions.isEmpty then "," else "") ++ newLineExpression.valueToPrint
         else "") ++ "\x7d)")
    | none => none
  | .input prompt expressions =>
    match print prompt, printEach expressions with
    | some p, some parts => some ("input(" ++ p ++ ",\x7b" ++ ",".intercalate parts ++ "\x7d)")
    | _, _ => none
/-- Modelled from the spec: `joinAndPrint` is declared outside `expression.cpp`;
it renders the elements in order, separated by commas (`print({e1,e2,...})`).
This is the list of the rendered elements, joined by the callers. -/
def printEach : List Expression → Option (List String)
  | [] => some []
  | e :: rest =>
    match print e, printEach rest with
    | some s, some parts => some (s :: parts)
    | _, _ => none
end

/-- The loop in the body of `ast::InputExpression::InputExpression`:
throws at the first element whose type is not a reference type. -/
def InputExpression.checkReferences : List Expression → Outcome Unit
  | [] => .returned ()
  | expression :: rest =>
    if !isReference expression.type then
      .thrown (.InvalidReferenceArgument expression.type)
    else checkReferences rest

/-- Move construction of a `std::vector` from `source`: the first component is
the newly constructed vector, the second is what `source` holds afterwards
(a moved-from `std::vector` is empty). -/
def moveVector {α : Type} (source : List α) : List α × List α :=
  (source, [])

/-- `ast::InputExpression::InputExpression(prompt, expressions)`.
The member initialiser `expressions(std::move(expressions))` move-constructs the
member from the parameter of the same name. In the constructor body the
unqualified name `expressions` denotes the parameter (a parameter hides a member
of the same name), so the loop runs over the parameter as the move left it. -/
def InputExpression.ctor (prompt : Expression) (expressions : List Expression) :
    Outcome Expression :=
  let moved := moveVector expressions
  let member_expressions := moved.1
  let expressions := moved.2
  match InputExpression.checkReferences expressions with
  | .returned () => .returned (.input prompt member_expressions)
  | .thrown e => .thrown e
  | .diverged => .diverged
  | .aborted => .aborted

/-- The inner loop of `ast::retrieveFunctionExpression` (lines 144-156): the pair
`(logicFileIsCorrect, logicFileIsCorrectable)` after visiting every position.
It is only called on lists of equal length. -/
def checkArguments (argumentList : List Expression) (argumentTypes : List GwType) :
    Bool × Bool :=
  (argumentList.zip argumentTypes).foldl
    (fun state pos =>
      let actualType := pos.1.type
      let expectedType := pos.2
      let typeIsCastableImplicitly := castableImplicitly actualType expectedType
      let typeIsCastable := typeIsCastableImplicitly || castableExplicitly actualType expectedType
      (state.1 && typeIsCastableImplicitly, state.2 && typeIsCastable))
    (true, true)

/-- How the candidate loop of `ast::retrieveFunctionExpression` ends. -/
inductive Selection where
  /-- The loop returned from inside: a candidate with `logicFileIsCorrect`. -/
  | correct (logicFile : logic.File)
  /-- The loop ran to its end with `correctableLogicFile != nullptr`. -/
  | correctable (correctableLogicFile : logic.File)
  /-- The loop ran to its end with `correctableLogicFile == nullptr`. -/
  | notFound
  deriving DecidableEq, Repr

/-- The candidate loop of `ast::retrieveFunctionExpression` (lines 139-165), run
over the remaining candidates with the current value of `correctableLogicFile`. -/
def selectLogicFile (argumentList : List Expression) :
    List logic.File → Option logic.File → Selection
  | [], none => .notFound
  | [], some correctableLogicFile => .correctable correctableLogicFile
  | logicFile :: rest, correctableLogicFile =>
    if logicFile.argumentTypes.length ≠ argumentList.length then
      selectLogicFile argumentList rest correctableLogicFile
    else
      let flags := checkArguments argumentList logicFile.argumentTypes
      if flags.1 then .correct logicFile
      else if flags.2 then selectLogicFile argumentList rest (some logicFile)
      else selectLogicFile argumentList rest correctableLogicFile

/-- The loop at lines 168-170 of `ast::retrieveFunctionExpression`: replaces each
argument, in order, by its cast to the parameter type at the same position; stops
at the first cast that does not return. `cast` is `castOrThrow`.
It is only called on lists of equal length. -/
def castArguments (cast : Expression → GwType → Outcome Expression) :
    List Expression → List GwType → Outcome (List Expression)
  | argument :: arguments, expectedType :: expectedTypes =>
    match cast argument expectedType with
    | .returned casted =>
      match castArguments cast arguments expectedTypes with
      | .returned rest => .returned (casted :: rest)
      | .thrown e => .thrown e
      | .diverged => .diverged
      | .aborted => .aborted
    | .thrown e => .thrown e
    | .diverged => .diverged
    | .aborted => .aborted
  | _, _ => .returned []

/-- The body of `ast::retrieveFunctionExpression`, with the callee `castOrThrow`
passed as `cast`. -/
def retrieveWith (cast : Expression → GwType → Outcome Expression) (reg : logic.Registry)
    (name : String) (argumentList : List Expression) : Outcome Expression :=
  match reg name with
  | none => .thrown (.FunctionNotFound name)
  | some logicFiles =>
    match selectLogicFile argumentList logicFiles none with
    | .correct logicFile => .returned (.function logicFile argumentList)
    | .correctable correctableLogicFile =>
      match castArguments cast argumentList correctableLogicFile.argumentTypes with
      | .returned casted => .returned (.function correctableLogicFile casted)
      | .thrown e => .thrown e
      | .diverged => .diverged
      | .aborted => .aborted
    | .notFound => .thrown (.SignatureNotFound name)

/-- The `switch (targetType)` of `ast::castOrThrow` choosing the conversion
function; `none` is the `assert(false)` branch. -/
def conversionName : GwType → Option String
  | .INT => some "cint"
  | .FLOAT => some "csng"
  | _ => none

/-- The body of `ast::castOrThrow` (single expression), with the callee
`retrieveFunctionExpression` passed as `retrieve`. -/
def castWith (retrieve : String → List Expression → Outcome Expression)
    (expression : Expression) (targetType : GwType) : Outcome Expression :=
  if castableImplicitly expression.type targetType then
    .returned (.casted expression targetType)
  else if castableExplicitly expression.type targetType then
    match conversionName targetType with
    | some functionName => retrieve functionName [expression]
    | none => .aborted
  else
    .thrown (.CastUnavailable expression.type targetType)

/-- `ast::castOrThrow(expression, targetType)` against the registry `reg`.
`fuel` bounds how deeply conversion calls may nest: a call of
`retrieveFunctionExpression` made at nesting depth `fuel` is `diverged`. -/
def castOrThrow (reg : logic.Registry) : Nat → Expression → GwType → Outcome Expression
  | 0 => castWith (fun _ _ => .diverged)
  | fuel + 1 => castWith (retrieveWith (castOrThrow reg fuel) reg)

/-- `ast::retrieveFunctionExpression(name, argumentList)` against the registry
`reg`; its casts may nest conversion calls up to depth `fuel`. -/
def retrieveFunctionExpression (reg : logic.Registry) (fuel : Nat) (name : String)
    (argumentList : List Expression) : Outcome Expression :=
  retrieveWith (castOrThrow reg fuel) reg name argumentList

/-- `ast::castOrThrow(expressions, targetType)`, the overload on a vector: casts
each element in order and stops at the first cast that does not return. -/
def castOrThrowEach (reg : logic.Registry) (fuel : Nat) :
    List Expression → GwType → Outcome (List Expression)
  | [], _ => .returned []
  | expression :: rest, targetType =>
    match castOrThrow reg fuel expression targetType with
    | .returned casted =>
      match castOrThrowEach reg fuel rest targetType with
      | .returned others => .returned (casted :: others)
      | .thrown e => .thrown e
      | .diverged => .diverged
      | .aborted => .aborted
    | .thrown e => .thrown e
    | .diverged => .diverged
    | .aborted => .aborted

/-- `ast::VectorDimExpression::VectorDimExpression`. -/
def VectorDimExpression.ctor (reg : logic.Registry) (fuel : Nat)
    (variable_ : VariableExpression) (new_sizes : List Expression) : Outcome Expression :=
  match castOrThrowEach reg fuel new_sizes .INT with
  | .returned casted => .returned (.vectorDim variable_ casted)
  | .thrown e => .thrown e
  | .diverged => .diverged
  | .aborted => .aborted

/-- `ast::VectorGetElementExpression::VectorGetElementExpression`. -/
def VectorGetElementExpression.ctor (reg : logic.Registry) (fuel : Nat)
    (variable_ : VariableExpression) (indexes : List Expression) : Outcome Expression :=
  match castOrThrowEach reg fuel indexes .INT with
  | .returned casted => .returned (.vectorGetElement variable_ casted)
  | .thrown e => .thrown e
  | .diverged => .diverged
  | .aborted => .aborted

/-- `ast::convertToString`. -/
def convertToString (reg : logic.Registry) (fuel : Nat) (expression : Expression) :
    Outcome Expression :=
  if expression.type = .STRING ∨ expression.type = .STRING_REF then
    .returned (.casted expression .STRING)
  else
    retrieveFunctionExpression reg fuel "str$" [expression]

/-! ## Predicates used to state the resolver's contract -/

/-- A candidate is an exact match: its arity equals the number of arguments and
every argument type is implicitly castable to the parameter type at its position. -/
def isExactMatch (argumentList : List Expression) (logicFile : logic.File) : Bool :=
  decide (logicFile.argumentTypes.length = argumentList.length) &&
    (argumentList.zip logicFile.argumentTypes).all
      (fun pos => castableImplicitly pos.1.type pos.2)

/-- A candidate is correctable: its arity equals the number of arguments and every
argument type is implicitly or explicitly castable to the parameter type at its
position. -/
def isCorrectableMatch (argumentList : List Expression) (logicFile : logic.File) : Bool :=
  decide (logicFile.argumentTypes.length = argumentList.length) &&
    (argumentList.zip logicFile.argumentTypes).all
      (fun pos => castableImplicitly pos.1.type pos.2 || castableExplicitly pos.1.type pos.2)

/-! ## Sample registries and expressions used to evaluate the code -/

/-- The double constant `1.5`. -/
def sampleDouble : Expression := .const ⟨.DOUBLE, "1.5"⟩

/-- The integer constant `5`. -/
def sampleInt : Expression := .const ⟨.INT, "5"⟩

/-- The string constant `"?"`. -/
def samplePrompt : Expression := .const ⟨.STRING, "\"?\""⟩

/-- A signature `f(INT) -> INT`. -/
def sigF_int : logic.File := ⟨"f", [.INT], .INT⟩

/-- A signature `f(DOUBLE) -> DOUBLE`. -/
def sigF_double : logic.File := ⟨"f", [.DOUBLE], .DOUBLE⟩

/-- A signature `f(FLOAT) -> FLOAT`. -/
def sigF_float : logic.File := ⟨"f", [.FLOAT], .FLOAT⟩

/-- A signature `cint(DOUBLE) -> INT`. -/
def sigCint_double : logic.File := ⟨"cint", [.DOUBLE], .INT⟩

/-- A signature `cint(FLOAT) -> INT`. -/
def sigCint_float : logic.File := ⟨"cint", [.FLOAT], .INT⟩

/-- A signature `csng(DOUBLE) -> FLOAT`. -/
def sigCsng_double : logic.File := ⟨"csng", [.DOUBLE], .FLOAT⟩

/-- A signature `cint(DOUBLE) -> STRING`. -/
def sigCint_string : logic.File := ⟨"cint", [.DOUBLE], .STRING⟩

/-- A registry with `f` (three overloads), `h` (the overloads `f(INT)` and
`f(FLOAT)` under another name) and both conversion functions taking a `DOUBLE`. -/
def regStandard : logic.Registry := fun name =>
  if name = "f" then some [sigF_int, sigF_double, sigF_float]
  else if name = "h" then some [sigF_int, sigF_float]
  else if name = "cint" then some [sigCint_double]
  else if name = "csng" then some [sigCsng_double]
  else none

/-- A registry with `f(INT) -> INT` only: no conversion function is registered. -/
def regNoConversions : logic.Registry := fun name =>
  if name = "f" then some [sigF_int] else none

/-- A signature `g(INT) -> INT`. -/
def sigG_int : logic.File := ⟨"g", [.INT], .INT⟩

/-- A registry with `g(INT) -> INT` only. -/
def regOnlyG : logic.Registry := fun name =>
  if name = "g" then some [sigG_int] else none

/-- A registry whose `cint` takes a `FLOAT` and whose `csng` takes a `DOUBLE`. -/
def regChained : logic.Registry := fun name =>
  if name = "cint" then some [sigCint_float]
  else if name = "csng" then some [sigCsng_double]
  else none

/-- A registry whose `cint` is declared to return `STRING`. -/
def regCintReturnsString : logic.Registry := fun name =>
  if name = "cint" then some [sigCint_string] else none

/-- A registry whose only conversion function is `cint(INT) -> INT`. -/
def regCintTakesInt : logic.Registry := fun name =>
  if name = "cint" then some [⟨"cint", [.INT], .INT⟩] else none

/-- The variable reference `x` of kind `INT_REF`. -/
def sampleVariable : VariableExpression := ⟨"x", .INT_REF⟩

/-! ## Further definitions used to state the contracts -/

/-- `ast::StringConstExpression::StringConstExpression(value)`; `escape` is
`util::escape`, declared outside `expression.cpp`. -/
def StringConstExpression (escape : String → String) (value : String) : ConstExpression :=
  ⟨.STRING, "\"" ++ escape value ++ "\""⟩

/-- `ast::PrintExpression::PrintExpression()`: no sub-expressions and the newline
constant built from `"\n"`. The initial value of the `printNewLine` member is set
outside `expression.cpp` and is a parameter. -/
def PrintExpression.ctor (escape : String → String) (printNewLine : Bool) : Expression :=
  .printStmt [] printNewLine (StringConstExpression escape "\n")

/-- The empty collector. -/
def ProgramInfo.empty : ProgramInfo := ⟨∅, ∅, ∅⟩

/-- Componentwise union of two collectors. -/
def ProgramInfo.union (a b : ProgramInfo) : ProgramInfo :=
  ⟨a.variableDefinitions ∪ b.variableDefinitions, a.coreFiles ∪ b.coreFiles,
    a.logicFiles ∪ b.logicFiles⟩

/-- Componentwise inclusion of two collectors. -/
def ProgramInfo.subset (a b : ProgramInfo) : Prop :=
  a.variableDefinitions ⊆ b.variableDefinitions ∧ a.coreFiles ⊆ b.coreFiles ∧
    a.logicFiles ⊆ b.logicFiles

mutual
/-- Every Variable Reference stored in the tree passed the constructor's
`assert(isReference(type))`. -/
def wellFormed : Expression → Bool
  | .const _ => true
  | .variableRef v => isReference v.type
  | .vectorDim variable_ new_sizes => isReference variable_.type && wellFormedEach new_sizes
  | .vectorGetElement variable_ indexes => isReference variable_.type && wellFormedEach indexes
  | .function _ argumentList => wellFormedEach argumentList
  | .casted expression _ => wellFormed expression
  | .printStmt expressions _ _ => wellFormedEach expressions
  | .input prompt expressions => wellFormed prompt && wellFormedEach expressions
/-- Every tree of the list is `wellFormed`. -/
def wellFormedEach : List Expression → Bool
  | [] => true
  | e :: rest => wellFormed e && wellFormedEach rest
end

/-- Every signature registered under `cint` returns `INT` and every signature
registered under `csng` returns `FLOAT`. -/
def conversionsReturnTarget (reg : logic.Registry) : Prop :=
  (∀ logicFiles, reg "cint" = some logicFiles → ∀ f ∈ logicFiles, f.returnType = .INT) ∧
  (∀ logicFiles, reg "csng" = some logicFiles → ∀ f ∈ logicFiles, f.returnType = .FLOAT)

/-- No one-parameter signature registered under `cint` or `csng` takes an `INT`
or a `FLOAT`, the only targets of explicit casts. -/
def conversionsTakeNoCastTarget (reg : logic.Registry) : Prop :=
  ∀ functionName, functionName = "cint" ∨ functionName = "csng" →
    ∀ logicFiles, reg functionName = some logicFiles →
      ∀ f ∈ logicFiles, ∀ p, f.argumentTypes = [p] → p ≠ .INT ∧ p ≠ .FLOAT

/-- The numeric types: the three numeric value types and their reference types. -/
def isNumeric : GwType → Bool
  | .INT | .FLOAT | .DOUBLE | .INT_REF | .FLOAT_REF | .DOUBLE_REF => true
  | _ => false

/-- The numeric value types. -/
def isNumericValue : GwType → Bool
  | .INT | .FLOAT | .DOUBLE => true
  | _ => false

/-- The type against which the conversion call made by `castOrThrow e t` casts `e`
again: defined when the type of `e` is explicitly and not implicitly castable to
`t`, the conversion name for `t` is registered, and the candidate loop run on `[e]`
ends with a correctable candidate; it is the first parameter type of that
candidate. -/
def nestedTarget (reg : logic.Registry) (e : Expression) (t : GwType) : Option GwType :=
  if castableImplicitly e.type t then none
  else if castableExplicitly e.type t then
    match conversionName t with
    | none => none
    | some functionName =>
      match reg functionName with
      | none => none
      | some logicFiles =>
        match selectLogicFile [e] logicFiles none with
        | .correctable f => f.argumentTypes.head?
        | _ => none
  else none

/-! ## Lemmas on the candidate loop -/

theorem checkArguments_foldl (l : List (Expression × GwType)) (b₁ b₂ : Bool) :
    l.foldl
      (fun state pos =>
        let actualType := pos.1.type
        let expectedType := pos.2
        let typeIsCastableImplicitly := castableImplicitly actualType expectedType
        let typeIsCastable :=
          typeIsCastableImplicitly || castableExplicitly actualType expectedType
        (state.1 && typeIsCastableImplicitly, state.2 && typeIsCastable))
      (b₁, b₂)
    = (b₁ && l.all (fun pos => castableImplicitly pos.1.type pos.2),
       b₂ && l.all (fun pos =>
          castableImplicitly pos.1.type pos.2 || castableExplicitly pos.1.type pos.2)) := by
  induction l generalizing b₁ b₂ with
  | nil => simp
  | cons pos rest ih =>
    simp only [List.foldl_cons, List.all_cons]
    rw [ih]
    simp [Bool.and_assoc]

theorem checkArguments_eq (argumentList : List Expression) (argumentTypes : List GwType) :
    checkArguments argumentList argumentTypes
    = ((argumentList.zip argumentTypes).all (fun pos => castableImplicitly pos.1.type pos.2),
       (argumentList.zip argumentTypes).all (fun pos =>
          castableImplicitly pos.1.type pos.2 || castableExplicitly pos.1.type pos.2)) := by
  unfold checkArguments
  rw [checkArguments_foldl]
  simp

/-- One iteration of the candidate loop, in terms of the two match predicates. -/
theorem selectLogicFile_cons (argumentList : List Expression) (logicFile : logic.File)
    (rest : List logic.File) (c : Option logic.File) :
    selectLogicFile argumentList (logicFile :: rest) c =
      if isExactMatch argumentList logicFile then .correct logicFile
      else if isCorrectableMatch argumentList logicFile then
        selectLogicFile argumentList rest (some logicFile)
      else selectLogicFile argumentList rest c := by
  by_cases hlen : logicFile.argumentTypes.length = argumentList.length
  · have hd : decide (logicFile.argumentTypes.length = argumentList.length) = true :=
      decide_eq_true hlen
    rw [selectLogicFile, if_neg (not_not.mpr hlen)]
    simp only [isExactMatch, isCorrectableMatch, hd, Bool.true_and, checkArguments_eq]
  · have hd : decide (logicFile.argumentTypes.length = argumentList.length) = false :=
      decide_eq_false hlen
    rw [selectLogicFile, if_pos hlen]
    simp only [isExactMatch, isCorrectableMatch, hd, Bool.false_and, Bool.false_eq_true,
      if_false]

theorem isCorrectableMatch_of_isExactMatch {argumentList : List Expression}
    {logicFile : logic.File} (h : isExactMatch argumentList logicFile = true) :
    isCorrectableMatch argumentList logicFile = true := by
  simp only [isExactMatch, isCorrectableMatch, Bool.and_eq_true, decide_eq_true_eq,
    List.all_eq_true, Bool.or_eq_true] at h ⊢
  exact ⟨h.1, fun pos hpos => Or.inl (h.2 pos hpos)⟩

/-- When no earlier candidate is an exact match, the loop returns at the first
exact match whatever was recorded as correctable before. -/
theorem selectLogicFile_append_exact (argumentList : List Expression)
    (pre post : List logic.File) (logicFile : logic.File) (c : Option logic.File)
    (hpre : ∀ g ∈ pre, isExactMatch argumentList g = false)
    (hex : isExactMatch argumentList logicFile = true) :
    selectLogicFile argumentList (pre ++ logicFile :: post) c = .correct logicFile := by
  induction pre generalizing c with
  | nil => simp [selectLogicFile_cons, hex]
  | cons g rest ih =>
    have hg : isExactMatch argumentList g = false := hpre g (List.mem_cons_self _ _)
    have hrest : ∀ g' ∈ rest, isExactMatch argumentList g' = false :=
      fun g' hg' => hpre g' (List.mem_cons_of_mem _ hg')
    rw [List.cons_append, selectLogicFile_cons, hg]
    simp only [Bool.false_eq_true, if_false]
    split
    · exact ih _ hrest
    · exact ih _ hrest

/-- A list with an element satisfying `p` splits at the first such element. -/
theorem exists_first_split {α : Type} (p : α → Bool) (l : List α)
    (h : ∃ x ∈ l, p x = true) :
    ∃ pre x post, l = pre ++ x :: post ∧ (∀ y ∈ pre, p y = false) ∧ p x = true := by
  induction l with
  | nil => simp at h
  | cons a rest ih =>
    cases ha : p a with
    | true => exact ⟨[], a, rest, rfl, by simp, ha⟩
    | false =>
      have h' : ∃ x ∈ rest, p x = true := by
        obtain ⟨x, hx, hpx⟩ := h
        rcases List.mem_cons.mp hx with rfl | hx'
        · rw [ha] at hpx; cases hpx
        · exact ⟨x, hx', hpx⟩
      obtain ⟨pre, x, post, hl, hpre, hx⟩ := ih h'
      refine ⟨a :: pre, x, post, by simp [hl], ?_, hx⟩
      intro y hy
      rcases List.mem_cons.mp hy with rfl | hy'
      · exact ha
      · exact hpre y hy'

/-- What the candidate loop's three endings say about the candidates. -/
theorem selectLogicFile_sound (argumentList : List Expression)
    (logicFiles : List logic.File) (c : Option logic.File) :
    (∀ f, selectLogicFile argumentList logicFiles c = .correct f →
        f ∈ logicFiles ∧ isExactMatch argumentList f = true) ∧
    (∀ f, selectLogicFile argumentList logicFiles c = .correctable f →
        c = some f ∨
          (f ∈ logicFiles ∧ isExactMatch argumentList f = false ∧
            isCorrectableMatch argumentList f = true)) ∧
    (selectLogicFile argumentList logicFiles c = .notFound → c = none) := by
  induction logicFiles generalizing c with
  | nil =>
    cases c with
    | none => simp [selectLogicFile]
    | some c0 => simp [selectLogicFile]
  | cons g rest ih =>
    rw [selectLogicFile_cons]
    cases hg : isExactMatch argumentList g with
    | true =>
      simp only [if_true]
      refine ⟨?_, ?_, ?_⟩
      · intro f hf
        cases hf
        exact ⟨List.mem_cons_self _ _, hg⟩
      · intro f hf; cases hf
      · intro hf; cases hf
    | false =>
      simp only [Bool.false_eq_true, if_false]
      cases hk : isCorrectableMatch argumentList g with
      | true =>
        simp only [if_true]
        obtain ⟨ih1, ih2, ih3⟩ := ih (some g)
        refine ⟨?_, ?_, ?_⟩
        · intro f hf
          exact ⟨List.mem_cons_of_mem _ (ih1 f hf).1, (ih1 f hf).2⟩
        · intro f hf
          rcases ih2 f hf with h | ⟨h1, h2, h3⟩
          · cases h
            exact Or.inr ⟨List.mem_cons_self _ _, hg, hk⟩
          · exact Or.inr ⟨List.mem_cons_of_mem _ h1, h2, h3⟩
        · intro hf
          cases ih3 hf
      | false =>
        simp only [Bool.false_eq_true, if_false]
        obtain ⟨ih1, ih2, ih3⟩ := ih c
        refine ⟨?_, ?_, ih3⟩
        · intro f hf
          exact ⟨List.mem_cons_of_mem _ (ih1 f hf).1, (ih1 f hf).2⟩
        · intro f hf
          rcases ih2 f hf with h | ⟨h1, h2, h3⟩
          · exact Or.inl h
          · exact Or.inr ⟨List.mem_cons_of_mem _ h1, h2, h3⟩

/-- With no correctable candidate left, the loop ends with what was recorded. -/
theorem selectLogicFile_no_correctable (argumentList : List Expression)
    (logicFiles : List logic.File) (c : Option logic.File)
    (h : ∀ g ∈ logicFiles, isCorrectableMatch argumentList g = false) :
    selectLogicFile argumentList logicFiles c =
      match c with
      | none => .notFound
      | some f => .correctable f := by
  induction logicFiles generalizing c with
  | nil => cases c <;> rfl
  | cons g rest ih =>
    have hk : isCorrectableMatch argumentList g = false := h g (List.mem_cons_self _ _)
    have hg : isExactMatch argumentList g = false := by
      cases hg : isExactMatch argumentList g with
      | false => rfl
      | true => rw [isCorrectableMatch_of_isExactMatch hg] at hk; cases hk
    rw [selectLogicFile_cons, hg, hk]
    simp only [Bool.false_eq_true, if_false]
    exact ih c (fun g' hg' => h g' (List.mem_cons_of_mem _ hg'))

/-- With no exact match among the candidates, the loop ends with the last
correctable candidate recorded. -/
theorem selectLogicFile_append_correctable (argumentList : List Expression)
    (pre post : List logic.File) (logicFile : logic.File) (c : Option logic.File)
    (hpre : ∀ g ∈ pre, isExactMatch argumentList g = false)
    (hex : isExactMatch argumentList logicFile = false)
    (hk : isCorrectableMatch argumentList logicFile = true)
    (hpost : ∀ g ∈ post, isCorrectableMatch argumentList g = false) :
    selectLogicFile argumentList (pre ++ logicFile :: post) c = .correctable logicFile := by
  induction pre generalizing c with
  | nil =>
    rw [List.nil_append, selectLogicFile_cons, hex, hk]
    simp only [Bool.false_eq_true, if_false, if_true]
    rw [selectLogicFile_no_correctable argumentList post (some logicFile) hpost]
  | cons g rest ih =>
    have hg : isExactMatch argumentList g = false := hpre g (List.mem_cons_self _ _)
    have hrest : ∀ g' ∈ rest, isExactMatch argumentList g' = false :=
      fun g' hg' => hpre g' (List.mem_cons_of_mem _ hg')
    rw [List.cons_append, selectLogicFile_cons, hg]
    simp only [Bool.false_eq_true, if_false]
    split
    · exact ih _ hrest
    · exact ih _ hrest

/-! ## Lemmas on the argument-casting loop -/

/-- The loop returns exactly when every cast returns, with the results in order. -/
theorem castArguments_returned_iff (cast : Expression → GwType → Outcome Expression)
    (argumentList : List Expression) (argumentTypes : List GwType)
    (out : List Expression) :
    castArguments cast argumentList argumentTypes = .returned out ↔
      List.Forall₂ (fun pos casted => cast pos.1 pos.2 = .returned casted)
        (argumentList.zip argumentTypes) out := by
  induction argumentList generalizing argumentTypes out with
  | nil =>
    simp only [castArguments, List.zip_nil_left, List.forall₂_nil_left_iff]
    constructor
    · intro h; cases h; rfl
    · intro h; rw [h]
  | cons a rest ih =>
    cases argumentTypes with
    | nil =>
      simp only [castArguments, List.zip_nil_right, List.forall₂_nil_left_iff]
      constructor
      · intro h; cases h; rfl
      · intro h; rw [h]
    | cons p ps =>
      simp only [castArguments, List.zip_cons_cons, List.forall₂_cons_left_iff]
      cases hc : cast a p with
      | returned a' =>
        cases hr : castArguments cast rest ps with
        | returned rest' =>
          simp only [Outcome.returned.injEq]
          constructor
          · intro h
            exact ⟨a', rest', rfl, (ih ps rest').mp hr, h.symm⟩
          · rintro ⟨b, us, hb, hus, rfl⟩
            cases hb
            have := (ih ps us).mpr hus
            rw [hr] at this
            cases this
            rfl
        | thrown e =>
          constructor
          · intro h; cases h
          · rintro ⟨b, us, _, hus, _⟩
            have := (ih ps us).mpr hus
            rw [hr] at this
            cases this
        | diverged =>
          constructor
          · intro h; cases h
          · rintro ⟨b, us, _, hus, _⟩
            have := (ih ps us).mpr hus
            rw [hr] at this
            cases this
        | aborted =>
          constructor
          · intro h; cases h
          · rintro ⟨b, us, _, hus, _⟩
            have := (ih ps us).mpr hus
            rw [hr] at this
            cases this
      | thrown e => simp
      | diverged => simp
      | aborted => simp

/-- A throw of the loop is the throw of the cast at some position. -/
theorem castArguments_thrown (cast : Expression → GwType → Outcome Expression)
    (argumentList : List Expression) (argumentTypes : List GwType) (e : Error)
    (h : castArguments cast argumentList argumentTypes = .thrown e) :
    ∃ pos ∈ argumentList.zip argumentTypes, cast pos.1 pos.2 = .thrown e := by
  induction argumentList generalizing argumentTypes with
  | nil => simp [castArguments] at h
  | cons a rest ih =>
    cases argumentTypes with
    | nil => simp [castArguments] at h
    | cons p ps =>
      simp only [castArguments] at h
      cases hc : cast a p with
      | returned a' =>
        rw [hc] at h
        simp only at h
        cases hr : castArguments cast rest ps with
        | returned rest' => rw [hr] at h; cases h
        | thrown e' =>
          rw [hr] at h
          cases h
          obtain ⟨pos, hpos, hthrow⟩ := ih ps hr
          exact ⟨pos, by simp [hpos], hthrow⟩
        | diverged => rw [hr] at h; cases h
        | aborted => rw [hr] at h; cases h
      | thrown e' =>
        rw [hc] at h
        cases h
        exact ⟨(a, p), by simp, hc⟩
      | diverged => rw [hc] at h; cases h
      | aborted => rw [hc] at h; cases h

/-- The loop ends as the first cast that does not return. -/
theorem castArguments_first_failure (cast : Expression → GwType → Outcome Expression)
    (argumentList : List Expression) (argumentTypes : List GwType)
    (done : List (Expression × GwType)) (pos : Expression × GwType)
    (rest : List (Expression × GwType))
    (hsplit : argumentList.zip argumentTypes = done ++ pos :: rest)
    (hdone : ∀ q ∈ done, ∃ c, cast q.1 q.2 = .returned c) :
    (∀ e, cast pos.1 pos.2 = .thrown e →
        castArguments cast argumentList argumentTypes = .thrown e) ∧
    (cast pos.1 pos.2 = .diverged →
        castArguments cast argumentList argumentTypes = .diverged) ∧
    (cast pos.1 pos.2 = .aborted →
        castArguments cast argumentList argumentTypes = .aborted) := by
  induction argumentList generalizing argumentTypes done with
  | nil => simp at hsplit
  | cons a tail ih =>
    cases argumentTypes with
    | nil => simp at hsplit
    | cons p ps =>
      rw [List.zip_cons_cons] at hsplit
      cases done with
      | nil =>
        rw [List.nil_append] at hsplit
        have hpos : pos = (a, p) := (List.cons.inj hsplit).1.symm
        subst hpos
        refine ⟨?_, ?_, ?_⟩
        · intro e he; simp only [castArguments]; simp only at he; rw [he]
        · intro he; simp only [castArguments]; simp only at he; rw [he]
        · intro he; simp only [castArguments]; simp only at he; rw [he]
      | cons q done' =>
        rw [List.cons_append] at hsplit
        have hq : q = (a, p) := (List.cons.inj hsplit).1.symm
        have htail : tail.zip ps = done' ++ pos :: rest := (List.cons.inj hsplit).2
        obtain ⟨c, hc⟩ := hdone q (List.mem_cons_self _ _)
        rw [hq] at hc
        simp only at hc
        obtain ⟨ih1, ih2, ih3⟩ :=
          ih ps done' htail (fun q' hq' => hdone q' (List.mem_cons_of_mem _ hq'))
        refine ⟨?_, ?_, ?_⟩
        · intro e he; simp only [castArguments]; rw [hc]; simp only; rw [ih1 e he]
        · intro he; simp only [castArguments]; rw [hc]; simp only; rw [ih2 he]
        · intro he; simp only [castArguments]; rw [hc]; simp only; rw [ih3 he]

/-! ## Lemmas on the resolver body -/

/-- What a returned node of the resolver body is. -/
theorem retrieveWith_returned (cast : Expression → GwType → Outcome Expression)
    (reg : logic.Registry) (name : String) (argumentList : List Expression)
    (r : Expression) (h : retrieveWith cast reg name argumentList = .returned r) :
    ∃ logicFiles f, reg name = some logicFiles ∧ f ∈ logicFiles ∧
      ((isExactMatch argumentList f = true ∧ r = .function f argumentList) ∨
       (isExactMatch argumentList f = false ∧ isCorrectableMatch argumentList f = true ∧
          ∃ casted, castArguments cast argumentList f.argumentTypes = .returned casted ∧
            r = .function f casted)) := by
  unfold retrieveWith at h
  cases hreg : reg name with
  | none => rw [hreg] at h; cases h
  | some logicFiles =>
    rw [hreg] at h
    simp only at h
    obtain ⟨s1, s2, _⟩ := selectLogicFile_sound argumentList logicFiles none
    cases hsel : selectLogicFile argumentList logicFiles none with
    | correct f =>
      rw [hsel] at h
      cases h
      exact ⟨logicFiles, f, rfl, (s1 f hsel).1, Or.inl ⟨(s1 f hsel).2, rfl⟩⟩
    | correctable f =>
      rw [hsel] at h
      simp only at h
      rcases s2 f hsel with hc | ⟨hmem, hex, hk⟩
      · cases hc
      · cases hcast : castArguments cast argumentList f.argumentTypes with
        | returned casted =>
          rw [hcast] at h
          cases h
          exact ⟨logicFiles, f, rfl, hmem, Or.inr ⟨hex, hk, casted, hcast, rfl⟩⟩
        | thrown e => rw [hcast] at h; cases h
        | diverged => rw [hcast] at h; cases h
        | aborted => rw [hcast] at h; cases h
    | notFound => rw [hsel] at h; cases h

/-- A throw of the resolver body is one of its own two throws or the throw of a
cast of an argument against a correctable candidate's parameter type. -/
theorem retrieveWith_thrown (cast : Expression → GwType → Outcome Expression)
    (reg : logic.Registry) (name : String) (argumentList : List Expression)
    (e : Error) (h : retrieveWith cast reg name argumentList = .thrown e) :
    (reg name = none ∧ e = .FunctionNotFound name) ∨
    (reg name ≠ none ∧ e = .SignatureNotFound name) ∨
    (∃ logicFiles f, reg name = some logicFiles ∧ f ∈ logicFiles ∧
        isCorrectableMatch argumentList f = true ∧
        ∃ pos ∈ argumentList.zip f.argumentTypes, cast pos.1 pos.2 = .thrown e) := by
  unfold retrieveWith at h
  cases hreg : reg name with
  | none => rw [hreg] at h; cases h; exact Or.inl ⟨rfl, rfl⟩
  | some logicFiles =>
    rw [hreg] at h
    simp only at h
    obtain ⟨_, s2, _⟩ := selectLogicFile_sound argumentList logicFiles none
    cases hsel : selectLogicFile argumentList logicFiles none with
    | correct f => rw [hsel] at h; cases h
    | correctable f =>
      rw [hsel] at h
      simp only at h
      rcases s2 f hsel with hc | ⟨hmem, _, hk⟩
      · cases hc
      · cases hcast : castArguments cast argumentList f.argumentTypes with
        | returned casted => rw [hcast] at h; cases h
        | thrown e' =>
          rw [hcast] at h
          cases h
          exact Or.inr (Or.inr ⟨logicFiles, f, rfl, hmem, hk,
            castArguments_thrown cast argumentList f.argumentTypes e hcast⟩)
        | diverged => rw [hcast] at h; cases h
        | aborted => rw [hcast] at h; cases h
    | notFound =>
      rw [hsel] at h
      cases h
      exact Or.inr (Or.inl ⟨by simp, rfl⟩)

/-- Every position of a correctable candidate is castable. -/
theorem castable_of_isCorrectableMatch {argumentList : List Expression}
    {f : logic.File} (hk : isCorrectableMatch argumentList f = true)
    {pos : Expression × GwType} (hpos : pos ∈ argumentList.zip f.argumentTypes) :
    castableImplicitly pos.1.type pos.2 = true ∨ castableExplicitly pos.1.type pos.2 = true := by
  simp only [isCorrectableMatch, Bool.and_eq_true, decide_eq_true_eq, List.all_eq_true,
    Bool.or_eq_true] at hk
  exact hk.2 pos hpos

/-! ## Lemmas on cast insertion -/

theorem castOrThrow_zero (reg : logic.Registry) (e : Expression) (t : GwType) :
    castOrThrow reg 0 e t = castWith (fun _ _ => .diverged) e t := rfl

theorem castOrThrow_succ (reg : logic.Registry) (fuel : Nat) (e : Expression) (t : GwType) :
    castOrThrow reg (fuel + 1) e t = castWith (retrieveWith (castOrThrow reg fuel) reg) e t :=
  rfl

/-- An explicitly castable target has a conversion function. -/
theorem conversionName_of_castableExplicitly :
    ∀ source target : GwType, castableExplicitly source target = true →
      (target = .INT ∧ conversionName target = some "cint") ∨
      (target = .FLOAT ∧ conversionName target = some "csng") := by
  decide

/-- A `CastUnavailable` thrown by a cast is its own, thrown because neither
table admits the pair. -/
theorem castOrThrow_castUnavailable (reg : logic.Registry) (fuel : Nat) :
    ∀ (e : Expression) (t a b : GwType),
      castOrThrow reg fuel e t = .thrown (.CastUnavailable a b) →
        castableImplicitly e.type t = false ∧ castableExplicitly e.type t = false ∧
          a = e.type ∧ b = t := by
  induction fuel with
  | zero =>
    intro e t a b h
    rw [castOrThrow_zero] at h
    unfold castWith at h
    cases hi : castableImplicitly e.type t with
    | true => rw [hi] at h; simp at h
    | false =>
      cases hx : castableExplicitly e.type t with
      | true =>
        rw [hi, hx] at h
        simp only [Bool.false_eq_true, if_false, if_true] at h
        split at h <;> cases h
      | false =>
        rw [hi, hx] at h
        simp only [Bool.false_eq_true, if_false] at h
        cases h
        exact ⟨rfl, rfl, rfl, rfl⟩
  | succ n ih =>
    intro e t a b h
    rw [castOrThrow_succ] at h
    unfold castWith at h
    cases hi : castableImplicitly e.type t with
    | true => rw [hi] at h; simp at h
    | false =>
      cases hx : castableExplicitly e.type t with
      | true =>
        rw [hi, hx] at h
        simp only [Bool.false_eq_true, if_false, if_true] at h
        split at h
        · rename_i functionName _
          rcases retrieveWith_thrown _ reg functionName [e] _ h with
            ⟨_, he⟩ | ⟨_, he⟩ | ⟨logicFiles, f, _, _, hk, pos, hpos, hthrow⟩
          · cases he
          · cases he
          · obtain ⟨h1, h2, _, _⟩ := ih pos.1 pos.2 a b hthrow
            rcases castable_of_isCorrectableMatch hk hpos with h3 | h3
            · rw [h1] at h3; cases h3
            · rw [h2] at h3; cases h3
        · cases h
      | false =>
        rw [hi, hx] at h
        simp only [Bool.false_eq_true, if_false] at h
        cases h
        exact ⟨rfl, rfl, rfl, rfl⟩

/-- A `FunctionNotFound` thrown by a cast names a function absent from the
registry. -/
theorem castOrThrow_functionNotFound (reg : logic.Registry) (fuel : Nat) :
    ∀ (e : Expression) (t : GwType) (n : String),
      castOrThrow reg fuel e t = .thrown (.FunctionNotFound n) → reg n = none := by
  induction fuel with
  | zero =>
    intro e t n h
    rw [castOrThrow_zero] at h
    unfold castWith at h
    split at h
    · cases h
    · split at h
      · split at h <;> cases h
      · cases h
  | succ k ih =>
    intro e t n h
    rw [castOrThrow_succ] at h
    unfold castWith at h
    split at h
    · cases h
    · split at h
      · split at h
        · rename_i functionName _
          rcases retrieveWith_thrown _ reg functionName [e] _ h with
            ⟨hnone, he⟩ | ⟨_, he⟩ | ⟨_, _, _, _, _, pos, _, hthrow⟩
          · cases he; exact hnone
          · cases he
          · exact ih pos.1 pos.2 n hthrow
        · cases h
      · cases h

/-- A list with an element satisfying `p` splits at the last such element. -/
theorem exists_last_split {α : Type} (p : α → Bool) (l : List α)
    (h : ∃ x ∈ l, p x = true) :
    ∃ pre x post, l = pre ++ x :: post ∧ p x = true ∧ (∀ y ∈ post, p y = false) := by
  induction l with
  | nil => simp at h
  | cons a rest ih =>
    by_cases hrest : ∃ x ∈ rest, p x = true
    · obtain ⟨pre, x, post, hl, hx, hpost⟩ := ih hrest
      exact ⟨a :: pre, x, post, by simp [hl], hx, hpost⟩
    · have ha : p a = true := by
        obtain ⟨x, hx, hpx⟩ := h
        rcases List.mem_cons.mp hx with rfl | hx'
        · exact hpx
        · exact absurd ⟨x, hx', hpx⟩ hrest
      refine ⟨[], a, rest, rfl, ha, ?_⟩
      intro y hy
      cases hy' : p y with
      | false => rfl
      | true => exact absurd ⟨y, hy, hy'⟩ hrest

/-- The body of `castOrThrow` on an implicitly castable pair. -/
theorem castWith_of_implicit (retrieve : String → List Expression → Outcome Expression)
    (e : Expression) (t : GwType) (h : castableImplicitly e.type t = true) :
    castWith retrieve e t = .returned (.casted e t) := by
  unfold castWith
  rw [h]
  rfl

theorem castOrThrow_of_implicit (reg : logic.Registry) (fuel : Nat) (e : Expression)
    (t : GwType) (h : castableImplicitly e.type t = true) :
    castOrThrow reg fuel e t = .returned (.casted e t) := by
  cases fuel with
  | zero => rw [castOrThrow_zero]; exact castWith_of_implicit _ e t h
  | succ n => rw [castOrThrow_succ]; exact castWith_of_implicit _ e t h

theorem castOrThrow_of_neither (reg : logic.Registry) (fuel : Nat) (e : Expression)
    (t : GwType) (h1 : castableImplicitly e.type t = false)
    (h2 : castableExplicitly e.type t = false) :
    castOrThrow reg fuel e t = .thrown (.CastUnavailable e.type t) := by
  cases fuel with
  | zero => rw [castOrThrow_zero]; unfold castWith; rw [h1, h2]; rfl
  | succ n => rw [castOrThrow_succ]; unfold castWith; rw [h1, h2]; rfl

/-- A node returned on the explicit path is a call bound to a signature
registered under the conversion name of the target. -/
theorem castOrThrow_explicit_bound (reg : logic.Registry) (fuel : Nat) (e : Expression)
    (t : GwType) (r : Expression)
    (hx : castableExplicitly e.type t = true)
    (hi : castableImplicitly e.type t = false)
    (h : castOrThrow reg fuel e t = .returned r) :
    ∃ functionName logicFiles f argumentList,
      ((t = .INT ∧ functionName = "cint") ∨ (t = .FLOAT ∧ functionName = "csng")) ∧
      reg functionName = some logicFiles ∧ f ∈ logicFiles ∧
      r = .function f argumentList := by
  obtain ⟨functionName, hfn, hconv⟩ :
      ∃ functionName, conversionName t = some functionName ∧
        ((t = .INT ∧ functionName = "cint") ∨ (t = .FLOAT ∧ functionName = "csng")) := by
    rcases conversionName_of_castableExplicitly e.type t hx with ⟨ht, hc⟩ | ⟨ht, hc⟩
    · exact ⟨"cint", hc, Or.inl ⟨ht, rfl⟩⟩
    · exact ⟨"csng", hc, Or.inr ⟨ht, rfl⟩⟩
  cases fuel with
  | zero =>
    rw [castOrThrow_zero] at h
    unfold castWith at h
    rw [hi, hx, hfn] at h
    simp at h
  | succ n =>
    rw [castOrThrow_succ] at h
    unfold castWith at h
    rw [hi, hx, hfn] at h
    simp only [Bool.false_eq_true, if_false, if_true] at h
    obtain ⟨logicFiles, f, hreg, hmem, hcase⟩ := retrieveWith_returned _ reg functionName [e] r h
    rcases hcase with ⟨_, hr⟩ | ⟨_, _, casted, _, hr⟩
    · exact ⟨functionName, logicFiles, f, [e], hconv, hreg, hmem, hr⟩
    · exact ⟨functionName, logicFiles, f, casted, hconv, hreg, hmem, hr⟩

/-! ## The Input Statement constructor (C1) -/

/-- The constructor's loop runs over the moved-from parameter, so it returns for
every argument list. -/
theorem InputExpression_ctor_returns (prompt : Expression) (expressions : List Expression) :
    InputExpression.ctor prompt expressions = .returned (.input prompt expressions) := by
  rfl

/-- C1 (code evaluated at the failing input): constructing an Input Statement from
the prompt `"?"` and the single sub-expression `5`, whose type `INT` is not a
reference type, returns the node instead of throwing the "Expected reference,
found INT" error; the check itself, run on that list, would throw it. -/
theorem InputExpression_ctor_accepts_non_reference :
    isReference sampleInt.type = false ∧
    InputExpression.checkReferences [sampleInt]
      = .thrown (.InvalidReferenceArgument .INT) ∧
    InputExpression.ctor samplePrompt [sampleInt]
      = .returned (.input samplePrompt [sampleInt]) := by
  refine ⟨rfl, rfl, rfl⟩

/-! ## The castability tables (C5, C6) -/

/-- C5: `castableImplicitly source target` holds exactly when the two types are
equal, or the target is `DOUBLE` and the source is one of `DOUBLE_REF`, `FLOAT`,
`FLOAT_REF`, `INT`, `INT_REF`, or the target is `FLOAT` and the source is one of
`FLOAT_REF`, `INT`, `INT_REF`, or the target is `INT` and the source is `INT_REF`,
or the target is `STRING` and the source is `STRING_REF`. -/
theorem castableImplicitly_table :
    ∀ source target : GwType,
      castableImplicitly source target = true ↔
        (source = target
          ∨ (target = .DOUBLE ∧
              (source = .DOUBLE_REF ∨ source = .FLOAT ∨ source = .FLOAT_REF
                ∨ source = .INT ∨ source = .INT_REF))
          ∨ (target = .FLOAT ∧ (source = .FLOAT_REF ∨ source = .INT ∨ source = .INT_REF))
          ∨ (target = .INT ∧ source = .INT_REF)
          ∨ (target = .STRING ∧ source = .STRING_REF)) := by
  decide

/-- C6: `castableExplicitly source target` holds exactly when the target is `INT`
and the source is one of `FLOAT`, `FLOAT_REF`, `DOUBLE`, `DOUBLE_REF`, or the target
is `FLOAT` and the source is `DOUBLE` or `DOUBLE_REF`; so it holds for
`(DOUBLE, INT)`, fails for `(INT, DOUBLE)`, and is never reflexive. -/
theorem castableExplicitly_table :
    (∀ source target : GwType,
      castableExplicitly source target = true ↔
        ((target = .INT ∧
            (source = .FLOAT ∨ source = .FLOAT_REF ∨ source = .DOUBLE ∨ source = .DOUBLE_REF))
          ∨ (target = .FLOAT ∧ (source = .DOUBLE ∨ source = .DOUBLE_REF))))
    ∧ castableExplicitly .DOUBLE .INT = true
    ∧ castableExplicitly .INT .DOUBLE = false
    ∧ (∀ t : GwType, castableExplicitly t t = false) := by
  decide

/-! ## Exact matches (C2) -/

/-- C2: if `name` is registered and some candidate is an exact match (arity equal
to the number of arguments, every argument type implicitly castable to the
parameter type), then the candidate list splits at the first exact match and
`retrieveFunctionExpression` returns the Function Call bound to that candidate with
the argument list it was given, whatever candidates precede it. -/
theorem retrieve_returns_first_exact_match (reg : logic.Registry) (fuel : Nat)
    (name : String) (argumentList : List Expression) (logicFiles : List logic.File)
    (hreg : reg name = some logicFiles)
    (hex : ∃ g ∈ logicFiles, isExactMatch argumentList g = true) :
    ∃ pre logicFile post,
      logicFiles = pre ++ logicFile :: post ∧
      (∀ g ∈ pre, isExactMatch argumentList g = false) ∧
      isExactMatch argumentList logicFile = true ∧
      retrieveFunctionExpression reg fuel name argumentList
        = .returned (.function logicFile argumentList) := by
  obtain ⟨pre, logicFile, post, hsplit, hpre, hf⟩ :=
    exists_first_split (isExactMatch argumentList) logicFiles hex
  refine ⟨pre, logicFile, post, hsplit, hpre, hf, ?_⟩
  unfold retrieveFunctionExpression retrieveWith
  rw [hreg]
  simp only
  rw [hsplit, selectLogicFile_append_exact argumentList pre post logicFile none hpre hf]

/-- C2 witness: in `regStandard`, `f` applied to the double constant has the
candidates `f(INT)` (correctable only), `f(DOUBLE)` (exact), `f(FLOAT)`; the exact
one is bound although a correctable one precedes it. -/
theorem retrieve_returns_first_exact_match_witness :
    ∃ pre logicFile post,
      [sigF_int, sigF_double, sigF_float] = pre ++ logicFile :: post ∧
      (∀ g ∈ pre, isExactMatch [sampleDouble] g = false) ∧
      isExactMatch [sampleDouble] logicFile = true ∧
      retrieveFunctionExpression regStandard 0 "f" [sampleDouble]
        = .returned (.function logicFile [sampleDouble]) :=
  retrieve_returns_first_exact_match regStandard 0 "f" [sampleDouble]
    [sigF_int, sigF_double, sigF_float] rfl ⟨sigF_double, by simp, rfl⟩

/-! ## Implicit casts (C7) -/

/-- C7: when the type of `e` is implicitly castable to `t`, `castOrThrow` returns
the single Cast Wrapper `casted e t` for every registry and every fuel (and for
any resolver passed to its body, so the registry is not consulted); the wrapper
reports type `t`, renders the text of `e`, and its `provideInfo` does to every
collector what the `provideInfo` of `e` does. -/
theorem castOrThrow_implicit (reg : logic.Registry) (fuel : Nat)
    (retrieve : String → List Expression → Outcome Expression)
    (e : Expression) (t : GwType)
    (h : castableImplicitly e.type t = true) :
    castOrThrow reg fuel e t = .returned (.casted e t) ∧
    castWith retrieve e t = .returned (.casted e t) ∧
    (Expression.casted e t).type = t ∧
    print (.casted e t) = print e ∧
    ∀ programInfo, provideInfo (.casted e t) programInfo = provideInfo e programInfo := by
  refine ⟨castOrThrow_of_implicit reg fuel e t h, castWith_of_implicit retrieve e t h,
    rfl, ?_, ?_⟩
  · rw [print]
  · intro programInfo
    rw [provideInfo]

/-- C7 witness: the integer constant `5` cast to `DOUBLE`, in a registry without
conversion functions. -/
theorem castOrThrow_implicit_witness :
    castOrThrow regNoConversions 0 sampleInt .DOUBLE = .returned (.casted sampleInt .DOUBLE) ∧
    castWith (fun _ _ => .aborted) sampleInt .DOUBLE
      = .returned (.casted sampleInt .DOUBLE) ∧
    (Expression.casted sampleInt .DOUBLE).type = .DOUBLE ∧
    print (.casted sampleInt .DOUBLE) = print sampleInt ∧
    ∀ programInfo,
      provideInfo (.casted sampleInt .DOUBLE) programInfo = provideInfo sampleInt programInfo :=
  castOrThrow_implicit regNoConversions 0 (fun _ _ => .aborted) sampleInt .DOUBLE rfl

/-! ## No applicable cast (C10) -/

/-- C10: `castOrThrow e t` throws the `CastUnavailable` error naming the type of
`e` and `t` exactly when the pair is neither implicitly nor explicitly castable;
every `CastUnavailable` it throws is that one; and `retrieveFunctionExpression`
never throws `CastUnavailable`, so none arises from the casts nested in the
conversion call of the explicit path. -/
theorem castOrThrow_castUnavailable_iff (reg : logic.Registry) (fuel : Nat)
    (e : Expression) (t : GwType) :
    (castOrThrow reg fuel e t = .thrown (.CastUnavailable e.type t) ↔
      (castableImplicitly e.type t = false ∧ castableExplicitly e.type t = false)) ∧
    (∀ a b, castOrThrow reg fuel e t = .thrown (.CastUnavailable a b) →
      a = e.type ∧ b = t ∧
        castableImplicitly e.type t = false ∧ castableExplicitly e.type t = false) ∧
    (∀ name argumentList a b,
      retrieveFunctionExpression reg fuel name argumentList
        ≠ .thrown (.CastUnavailable a b)) := by
  refine ⟨⟨?_, ?_⟩, ?_, ?_⟩
  · intro h
    obtain ⟨h1, h2, _, _⟩ := castOrThrow_castUnavailable reg fuel e t _ _ h
    exact ⟨h1, h2⟩
  · rintro ⟨h1, h2⟩
    exact castOrThrow_of_neither reg fuel e t h1 h2
  · intro a b h
    obtain ⟨h1, h2, h3, h4⟩ := castOrThrow_castUnavailable reg fuel e t a b h
    exact ⟨h3, h4, h1, h2⟩
  · intro name argumentList a b h
    unfold retrieveFunctionExpression at h
    rcases retrieveWith_thrown _ reg name argumentList _ h with
      ⟨_, he⟩ | ⟨_, he⟩ | ⟨_, f, _, _, hk, pos, hpos, hthrow⟩
    · cases he
    · cases he
    · obtain ⟨h1, h2, _, _⟩ := castOrThrow_castUnavailable reg fuel pos.1 pos.2 a b hthrow
      rcases castable_of_isCorrectableMatch hk hpos with h3 | h3
      · rw [h1] at h3; cases h3
      · rw [h2] at h3; cases h3

/-- C10 witness: the string constant cannot be cast to `INT`. -/
theorem castOrThrow_castUnavailable_iff_witness :
    castOrThrow regStandard 0 samplePrompt .INT
      = .thrown (.CastUnavailable samplePrompt.type .INT) :=
  (castOrThrow_castUnavailable_iff regStandard 0 samplePrompt .INT).1.mpr ⟨rfl, rfl⟩

/-! ## Resolver failures (C4) -/

/-- C4 (the claim fails here): in the registry holding only `g(INT) -> INT`, the
name `g` is registered, yet resolving `g` on the double constant fails with a
`FunctionNotFound` error, the one thrown for the conversion function `cint` by
the cast of the argument. -/
theorem retrieve_functionNotFound_for_registered_name :
    regOnlyG "g" = some [sigG_int] ∧
    ∀ fuel, retrieveFunctionExpression regOnlyG (fuel + 1) "g" [sampleDouble]
      = .thrown (.FunctionNotFound "cint") := by
  refine ⟨rfl, ?_⟩
  intro fuel
  rfl

/-- C4 (amended): `retrieveFunctionExpression` throws the `FunctionNotFound` error
naming the requested function exactly when that name is absent from the registry;
any `FunctionNotFound` it throws names an absent function; and when the name is
registered but no candidate is correctable (in particular when no candidate has
the arity of the argument list) it throws `SignatureNotFound` for that name. -/
theorem retrieve_not_found (reg : logic.Registry) (fuel : Nat) (name : String)
    (argumentList : List Expression) :
    (retrieveFunctionExpression reg fuel name argumentList = .thrown (.FunctionNotFound name)
      ↔ reg name = none) ∧
    (∀ n, retrieveFunctionExpression reg fuel name argumentList
        = .thrown (.FunctionNotFound n) → reg n = none) ∧
    (∀ logicFiles, reg name = some logicFiles →
      (∀ g ∈ logicFiles, isCorrectableMatch argumentList g = false) →
      retrieveFunctionExpression reg fuel name argumentList
        = .thrown (.SignatureNotFound name)) ∧
    (∀ logicFiles, reg name = some logicFiles →
      (∀ g ∈ logicFiles, g.argumentTypes.length ≠ argumentList.length) →
      retrieveFunctionExpression reg fuel name argumentList
        = .thrown (.SignatureNotFound name)) := by
  have hnamed : ∀ n, retrieveFunctionExpression reg fuel name argumentList
      = .thrown (.FunctionNotFound n) → reg n = none := by
    intro n h
    unfold retrieveFunctionExpression at h
    rcases retrieveWith_thrown _ reg name argumentList _ h with
      ⟨hnone, he⟩ | ⟨_, he⟩ | ⟨_, _, _, _, _, pos, _, hthrow⟩
    · cases he; exact hnone
    · cases he
    · exact castOrThrow_functionNotFound reg fuel pos.1 pos.2 n hthrow
  have hsig : ∀ logicFiles, reg name = some logicFiles →
      (∀ g ∈ logicFiles, isCorrectableMatch argumentList g = false) →
      retrieveFunctionExpression reg fuel name argumentList
        = .thrown (.SignatureNotFound name) := by
    intro logicFiles hreg hnone
    unfold retrieveFunctionExpression retrieveWith
    rw [hreg]
    simp only
    rw [selectLogicFile_no_correctable argumentList logicFiles none hnone]
  refine ⟨⟨hnamed name, ?_⟩, hnamed, hsig, ?_⟩
  · intro hnone
    unfold retrieveFunctionExpression retrieveWith
    rw [hnone]
  · intro logicFiles hreg harity
    apply hsig logicFiles hreg
    intro g hg
    simp [isCorrectableMatch, harity g hg]

/-- C4 witness: in `regStandard` the name `zzz` is absent, and `f` has no
candidate of arity two. -/
theorem retrieve_not_found_witness :
    retrieveFunctionExpression regStandard 0 "zzz" [] = .thrown (.FunctionNotFound "zzz") ∧
    retrieveFunctionExpression regStandard 0 "f" [sampleInt, sampleInt]
      = .thrown (.SignatureNotFound "f") :=
  ⟨(retrieve_not_found regStandard 0 "zzz" []).1.mpr rfl,
   (retrieve_not_found regStandard 0 "f" [sampleInt, sampleInt]).2.2.2
      [sigF_int, sigF_double, sigF_float] rfl (by decide)⟩

/-! ## Correctable matches (C3) -/

/-- C3 (the claim fails here): in the registry holding only `f(INT) -> INT`, the
name `f` is registered, its one candidate is not an exact match for the double
constant but is correctable, and yet `retrieveFunctionExpression` returns no node
at any fuel: the cast of the argument needs `cint`, which is not registered. -/
theorem retrieve_correctable_may_fail :
    regNoConversions "f" = some [sigF_int] ∧
    isExactMatch [sampleDouble] sigF_int = false ∧
    isCorrectableMatch [sampleDouble] sigF_int = true ∧
    (∀ fuel, retrieveFunctionExpression regNoConversions (fuel + 1) "f" [sampleDouble]
      = .thrown (.FunctionNotFound "cint")) ∧
    (∀ fuel r, retrieveFunctionExpression regNoConversions fuel "f" [sampleDouble]
      ≠ .returned r) := by
  refine ⟨rfl, rfl, rfl, fun _ => rfl, ?_⟩
  intro fuel r h
  cases fuel with
  | zero => cases h
  | succ n => cases h

/-- C3 (amended): if `name` is registered, no candidate is an exact match and some
candidate is correctable, then the candidate list splits at the last correctable
candidate `f`, and `retrieveFunctionExpression` returns a node exactly when the
cast of every argument to the parameter type of `f` at its position returns; the
node is then the Function Call bound to `f` whose arguments are those cast
results, in order and as many as were given. If the cast at some position does not
return while the casts before it do, the resolver ends as that cast does. -/
theorem retrieve_last_correctable (reg : logic.Registry) (fuel : Nat) (name : String)
    (argumentList : List Expression) (logicFiles : List logic.File)
    (hreg : reg name = some logicFiles)
    (hno : ∀ g ∈ logicFiles, isExactMatch argumentList g = false)
    (hsome : ∃ g ∈ logicFiles, isCorrectableMatch argumentList g = true) :
    ∃ pre f post,
      logicFiles = pre ++ f :: post ∧
      isCorrectableMatch argumentList f = true ∧
      (∀ g ∈ post, isCorrectableMatch argumentList g = false) ∧
      (∀ r, retrieveFunctionExpression reg fuel name argumentList = .returned r ↔
        ∃ casted, r = .function f casted ∧ casted.length = argumentList.length ∧
          List.Forall₂ (fun pos c => castOrThrow reg fuel pos.1 pos.2 = .returned c)
            (argumentList.zip f.argumentTypes) casted) ∧
      (∀ done pos rest, argumentList.zip f.argumentTypes = done ++ pos :: rest →
        (∀ q ∈ done, ∃ c, castOrThrow reg fuel q.1 q.2 = .returned c) →
        (∀ c, castOrThrow reg fuel pos.1 pos.2 ≠ .returned c) →
        retrieveFunctionExpression reg fuel name argumentList
          = castOrThrow reg fuel pos.1 pos.2) := by
  obtain ⟨pre, f, post, hsplit, hk, hpost⟩ :=
    exists_last_split (isCorrectableMatch argumentList) logicFiles hsome
  have hpre : ∀ g ∈ pre, isExactMatch argumentList g = false := by
    intro g hg
    exact hno g (by rw [hsplit]; exact List.mem_append_left _ hg)
  have hf : isExactMatch argumentList f = false :=
    hno f (by rw [hsplit]; simp)
  have hsel : selectLogicFile argumentList logicFiles none = .correctable f := by
    rw [hsplit]
    exact selectLogicFile_append_correctable argumentList pre post f none hpre hf hk hpost
  have hbody : retrieveFunctionExpression reg fuel name argumentList =
      match castArguments (castOrThrow reg fuel) argumentList f.argumentTypes with
      | .returned casted => .returned (.function f casted)
      | .thrown e => .thrown e
      | .diverged => .diverged
      | .aborted => .aborted := by
    unfold retrieveFunctionExpression retrieveWith
    rw [hreg]
    simp only
    rw [hsel]
  have hlen : f.argumentTypes.length = argumentList.length := by
    simp only [isCorrectableMatch, Bool.and_eq_true, decide_eq_true_eq] at hk
    exact hk.1
  refine ⟨pre, f, post, hsplit, hk, hpost, ?_, ?_⟩
  · intro r
    rw [hbody]
    constructor
    · intro h
      cases hc : castArguments (castOrThrow reg fuel) argumentList f.argumentTypes with
      | returned casted =>
        rw [hc] at h
        cases h
        have hall := (castArguments_returned_iff _ _ _ _).mp hc
        refine ⟨casted, rfl, ?_, hall⟩
        have := hall.length_eq
        rw [List.length_zip, hlen, Nat.min_self] at this
        exact this.symm
      | thrown e => rw [hc] at h; cases h
      | diverged => rw [hc] at h; cases h
      | aborted => rw [hc] at h; cases h
    · rintro ⟨casted, rfl, _, hall⟩
      rw [(castArguments_returned_iff _ _ _ _).mpr hall]
  · intro done pos rest hzip hdone hfail
    obtain ⟨h1, h2, h3⟩ :=
      castArguments_first_failure (castOrThrow reg fuel) argumentList f.argumentTypes
        done pos rest hzip hdone
    rw [hbody]
    cases hc : castOrThrow reg fuel pos.1 pos.2 with
    | returned c => exact absurd hc (hfail c)
    | thrown e => rw [h1 e hc]
    | diverged => rw [h2 hc]
    | aborted => rw [h3 hc]

/-- C3 witness: in `regStandard`, `h` applied to the double constant has the
candidates `f(INT)` and `f(FLOAT)`, both correctable and neither exact. -/
theorem retrieve_last_correctable_witness :
    ∃ pre f post,
      [sigF_int, sigF_float] = pre ++ f :: post ∧
      isCorrectableMatch [sampleDouble] f = true ∧
      (∀ g ∈ post, isCorrectableMatch [sampleDouble] g = false) ∧
      (∀ r, retrieveFunctionExpression regStandard 1 "h" [sampleDouble] = .returned r ↔
        ∃ casted, r = .function f casted ∧ casted.length = [sampleDouble].length ∧
          List.Forall₂ (fun pos c => castOrThrow regStandard 1 pos.1 pos.2 = .returned c)
            ([sampleDouble].zip f.argumentTypes) casted) ∧
      (∀ done pos rest, [sampleDouble].zip f.argumentTypes = done ++ pos :: rest →
        (∀ q ∈ done, ∃ c, castOrThrow regStandard 1 q.1 q.2 = .returned c) →
        (∀ c, castOrThrow regStandard 1 pos.1 pos.2 ≠ .returned c) →
        retrieveFunctionExpression regStandard 1 "h" [sampleDouble]
          = castOrThrow regStandard 1 pos.1 pos.2) :=
  retrieve_last_correctable regStandard 1 "h" [sampleDouble] [sigF_int, sigF_float] rfl
    (by decide) ⟨sigF_int, by simp, rfl⟩

/-! ## Explicit casts (C8, C9) -/

/-- C8 (the claim fails here): with `cint(FLOAT) -> INT` and `csng(DOUBLE) -> FLOAT`
registered, the double constant is explicitly and not implicitly castable to
`INT`, the cast returns, and the sole argument of the returned call to `cint` is
not the original expression but a nested call to `csng`. -/
theorem castOrThrow_explicit_nests_conversion :
    castableExplicitly sampleDouble.type .INT = true ∧
    castableImplicitly sampleDouble.type .INT = false ∧
    castOrThrow regChained 2 sampleDouble .INT
      = .returned (.function sigCint_float [.function sigCsng_double [sampleDouble]]) ∧
    (∀ f, Expression.function sigCint_float [.function sigCsng_double [sampleDouble]]
      ≠ .function f [sampleDouble]) := by
  refine ⟨rfl, rfl, rfl, ?_⟩
  intro f h
  simp [sampleDouble] at h

/-- C8 (amended): when the type of `e` is explicitly and not implicitly castable
to `t`, every node that `castOrThrow e t` returns is a Function Call bound to a
signature `f` registered under the conversion name for `t` (`cint` for `INT`,
`csng` for `FLOAT`) with exactly one parameter `p` and exactly one argument; the
argument is `e` itself when the type of `e` is implicitly castable to `p`, and
otherwise it is the node returned by `castOrThrow e p`, made one nesting level
deeper. -/
theorem castOrThrow_explicit (reg : logic.Registry) (fuel : Nat) (e : Expression)
    (t : GwType) (r : Expression)
    (hx : castableExplicitly e.type t = true)
    (hi : castableImplicitly e.type t = false)
    (h : castOrThrow reg fuel e t = .returned r) :
    ∃ functionName logicFiles f p a,
      ((t = .INT ∧ functionName = "cint") ∨ (t = .FLOAT ∧ functionName = "csng")) ∧
      reg functionName = some logicFiles ∧ f ∈ logicFiles ∧
      f.argumentTypes = [p] ∧ r = .function f [a] ∧
      ((castableImplicitly e.type p = true ∧ a = e) ∨
       (castableImplicitly e.type p = false ∧ castableExplicitly e.type p = true ∧
          ∃ n, fuel = n + 1 ∧ castOrThrow reg n e p = .returned a)) := by
  have hname := conversionName_of_castableExplicitly e.type t hx
  obtain ⟨functionName, hfn, hconv⟩ :
      ∃ functionName, conversionName t = some functionName ∧
        ((t = .INT ∧ functionName = "cint") ∨ (t = .FLOAT ∧ functionName = "csng")) := by
    rcases hname with ⟨ht, hc⟩ | ⟨ht, hc⟩
    · exact ⟨"cint", hc, Or.inl ⟨ht, rfl⟩⟩
    · exact ⟨"csng", hc, Or.inr ⟨ht, rfl⟩⟩
  cases fuel with
  | zero =>
    rw [castOrThrow_zero] at h
    unfold castWith at h
    rw [hi, hx, hfn] at h
    simp at h
  | succ n =>
    rw [castOrThrow_succ] at h
    unfold castWith at h
    rw [hi, hx, hfn] at h
    simp only [Bool.false_eq_true, if_false, if_true] at h
    obtain ⟨logicFiles, f, hreg, hmem, hcase⟩ := retrieveWith_returned _ reg functionName [e] r h
    have hone : isCorrectableMatch [e] f = true → ∃ p, f.argumentTypes = [p] := by
      intro hk
      simp only [isCorrectableMatch, Bool.and_eq_true, decide_eq_true_eq] at hk
      exact List.length_eq_one.mp hk.1
    rcases hcase with ⟨hex, hr⟩ | ⟨hex, hk, casted, hcast, hr⟩
    · obtain ⟨p, hp⟩ := hone (isCorrectableMatch_of_isExactMatch hex)
      refine ⟨functionName, logicFiles, f, p, e, hconv, hreg, hmem, hp, hr, Or.inl ⟨?_, rfl⟩⟩
      simpa [isExactMatch, hp] using hex
    · obtain ⟨p, hp⟩ := hone hk
      have himp : castableImplicitly e.type p = false := by
        simpa [isExactMatch, hp] using hex
      have hexp : castableExplicitly e.type p = true := by
        simpa [isCorrectableMatch, hp, himp] using hk
      rw [hp] at hcast
      have hall := (castArguments_returned_iff _ _ _ _).mp hcast
      simp only [List.zip_cons_cons, List.zip_nil_left, List.forall₂_cons_left_iff,
        List.forall₂_nil_left_iff] at hall
      obtain ⟨a, tail, ha, htail, hc⟩ := hall
      subst htail
      subst hc
      exact ⟨functionName, logicFiles, f, p, a, hconv, hreg, hmem, hp, hr,
        Or.inr ⟨himp, hexp, n, rfl, ha⟩⟩

/-- C8 witness: the double constant cast to `INT` in `regStandard`. -/
theorem castOrThrow_explicit_witness :
    ∃ functionName logicFiles f p a,
      ((GwType.INT = .INT ∧ functionName = "cint") ∨
        (GwType.INT = .FLOAT ∧ functionName = "csng")) ∧
      regStandard functionName = some logicFiles ∧ f ∈ logicFiles ∧
      f.argumentTypes = [p] ∧
      Expression.function sigCint_double [sampleDouble] = .function f [a] ∧
      ((castableImplicitly sampleDouble.type p = true ∧ a = sampleDouble) ∨
       (castableImplicitly sampleDouble.type p = false ∧
          castableExplicitly sampleDouble.type p = true ∧
          ∃ n, 1 = n + 1 ∧ castOrThrow regStandard n sampleDouble p = .returned a)) :=
  castOrThrow_explicit regStandard 1 sampleDouble .INT
    (.function sigCint_double [sampleDouble]) rfl rfl rfl

/-- C9 (the claim fails here): with `cint(DOUBLE) -> STRING` registered, casting
the double constant to `INT` returns a call whose type is `STRING`, not `INT`. -/
theorem castOrThrow_type_follows_registry :
    castOrThrow regCintReturnsString 1 sampleDouble .INT
      = .returned (.function sigCint_string [sampleDouble]) ∧
    (Expression.function sigCint_string [sampleDouble]).type = .STRING ∧
    (Expression.function sigCint_string [sampleDouble]).type ≠ .INT := by
  refine ⟨rfl, rfl, ?_⟩
  decide

/-- C9 (amended): provided every signature registered under `cint` returns `INT`
and every signature registered under `csng` returns `FLOAT`, every node that
`castOrThrow e t` returns has type `t`. -/
theorem castOrThrow_type (reg : logic.Registry) (fuel : Nat) (e : Expression)
    (t : GwType) (r : Expression)
    (hcint : ∀ logicFiles, reg "cint" = some logicFiles →
      ∀ f ∈ logicFiles, f.returnType = .INT)
    (hcsng : ∀ logicFiles, reg "csng" = some logicFiles →
      ∀ f ∈ logicFiles, f.returnType = .FLOAT)
    (h : castOrThrow reg fuel e t = .returned r) :
    r.type = t := by
  cases hi : castableImplicitly e.type t with
  | true =>
    have := castOrThrow_of_implicit reg fuel e t hi
    rw [this] at h
    cases h
    rfl
  | false =>
    cases hx : castableExplicitly e.type t with
    | true =>
      obtain ⟨functionName, logicFiles, f, argumentList, hconv, hreg, hmem, hr⟩ :=
        castOrThrow_explicit_bound reg fuel e t r hx hi h
      rw [hr]
      show f.returnType = t
      rcases hconv with ⟨ht, hn⟩ | ⟨ht, hn⟩
      · rw [ht]; rw [hn] at hreg; exact hcint logicFiles hreg f hmem
      · rw [ht]; rw [hn] at hreg; exact hcsng logicFiles hreg f hmem
    | false =>
      have := castOrThrow_of_neither reg fuel e t hi hx
      rw [this] at h
      cases h

/-- C9 witness: in `regStandard` both conversion functions return the type they
convert to, and the double constant cast to `INT` is a call of type `INT`. -/
theorem castOrThrow_type_witness :
    castOrThrow regStandard 1 sampleDouble .INT
      = .returned (.function sigCint_double [sampleDouble]) ∧
    (Expression.function sigCint_double [sampleDouble]).type = .INT :=
  ⟨rfl,
   castOrThrow_type regStandard 1 sampleDouble .INT (.function sigCint_double [sampleDouble])
    (by
      intro logicFiles hreg f hf
      have hc : regStandard "cint" = some [sigCint_double] := rfl
      rw [hc] at hreg
      cases hreg
      rw [List.mem_singleton] at hf
      rw [hf]; rfl)
    (by
      intro logicFiles hreg f hf
      have hc : regStandard "csng" = some [sigCsng_double] := rfl
      rw [hc] at hreg
      cases hreg
      rw [List.mem_singleton] at hf
      rw [hf]; rfl)
    rfl⟩

/-! ## Unreachable branches (C16) -/

/-- An abort of the argument-casting loop is the abort of a cast. -/
theorem castArguments_aborted (cast : Expression → GwType → Outcome Expression)
    (argumentList : List Expression) (argumentTypes : List GwType)
    (h : castArguments cast argumentList argumentTypes = .aborted) :
    ∃ pos ∈ argumentList.zip argumentTypes, cast pos.1 pos.2 = .aborted := by
  induction argumentList generalizing argumentTypes with
  | nil => simp [castArguments] at h
  | cons a rest ih =>
    cases argumentTypes with
    | nil => simp [castArguments] at h
    | cons p ps =>
      simp only [castArguments] at h
      cases hc : cast a p with
      | returned a' =>
        rw [hc] at h
        simp only at h
        cases hr : castArguments cast rest ps with
        | returned rest' => rw [hr] at h; cases h
        | thrown e' => rw [hr] at h; cases h
        | diverged => rw [hr] at h; cases h
        | aborted =>
          obtain ⟨pos, hpos, hab⟩ := ih ps hr
          exact ⟨pos, by simp [hpos], hab⟩
      | thrown e' => rw [hc] at h; cases h
      | diverged => rw [hc] at h; cases h
      | aborted => exact ⟨(a, p), by simp, hc⟩

/-- An abort of the resolver body is the abort of a cast. -/
theorem retrieveWith_aborted (cast : Expression → GwType → Outcome Expression)
    (reg : logic.Registry) (name : String) (argumentList : List Expression)
    (h : retrieveWith cast reg name argumentList = .aborted) :
    ∃ e p, cast e p = .aborted := by
  unfold retrieveWith at h
  cases hreg : reg name with
  | none => rw [hreg] at h; cases h
  | some logicFiles =>
    rw [hreg] at h
    simp only at h
    cases hsel : selectLogicFile argumentList logicFiles none with
    | correct f => rw [hsel] at h; cases h
    | correctable f =>
      rw [hsel] at h
      simp only at h
      cases hcast : castArguments cast argumentList f.argumentTypes with
      | returned casted => rw [hcast] at h; cases h
      | thrown e => rw [hcast] at h; cases h
      | diverged => rw [hcast] at h; cases h
      | aborted =>
        obtain ⟨pos, _, hab⟩ := castArguments_aborted cast argumentList f.argumentTypes hcast
        exact ⟨pos.1, pos.2, hab⟩
    | notFound => rw [hsel] at h; cases h

/-- The `assert(false)` of `castOrThrow` is not reached at any nesting depth. -/
theorem castOrThrow_ne_aborted (reg : logic.Registry) (fuel : Nat) :
    ∀ (e : Expression) (t : GwType), castOrThrow reg fuel e t ≠ .aborted := by
  induction fuel with
  | zero =>
    intro e t h
    rw [castOrThrow_zero] at h
    unfold castWith at h
    split at h
    · cases h
    · rename_i hi
      split at h
      · rename_i hx
        rcases conversionName_of_castableExplicitly e.type t hx with ⟨_, hc⟩ | ⟨_, hc⟩ <;>
          (rw [hc] at h; cases h)
      · cases h
  | succ n ih =>
    intro e t h
    rw [castOrThrow_succ] at h
    unfold castWith at h
    split at h
    · cases h
    · split at h
      · rename_i hx
        rcases conversionName_of_castableExplicitly e.type t hx with ⟨_, hc⟩ | ⟨_, hc⟩ <;>
          (rw [hc] at h
           simp only at h
           obtain ⟨e', p, hab⟩ := retrieveWith_aborted _ reg _ [e] h
           exact ih e' p hab)
      · cases h

/-- C16: the branches marked `assert(false)` are not reached. Every explicitly
castable pair has target `INT` or `FLOAT`, so the `switch` of `castOrThrow` selects
`cint` or `csng`, and neither `castOrThrow` nor `retrieveFunctionExpression` ever
aborts; and for every Variable Reference that its constructor accepts (the type is
one of the four reference kinds), `getPrintableType` and `getPrintableName` return
a value instead of reaching their default case. -/
theorem assert_false_unreachable :
    (∀ source target : GwType, castableExplicitly source target = true →
      (target = .INT ∧ conversionName target = some "cint") ∨
      (target = .FLOAT ∧ conversionName target = some "csng")) ∧
    (∀ (reg : logic.Registry) (fuel : Nat) (e : Expression) (t : GwType),
      castOrThrow reg fuel e t ≠ .aborted) ∧
    (∀ (reg : logic.Registry) (fuel : Nat) (name : String) (argumentList : List Expression),
      retrieveFunctionExpression reg fuel name argumentList ≠ .aborted) ∧
    (∀ (name : String) (type : GwType) (v : VariableExpression),
      VariableExpression.ctor name type = some v →
        isReference v.type = true ∧
        (∃ printableType, v.getPrintableType = some printableType) ∧
        (∃ printableName, v.getPrintableName = some printableName)) := by
  refine ⟨conversionName_of_castableExplicitly, castOrThrow_ne_aborted, ?_, ?_⟩
  · intro reg fuel name argumentList h
    obtain ⟨e, p, hab⟩ := retrieveWith_aborted _ reg name argumentList h
    exact castOrThrow_ne_aborted reg fuel e p hab
  · intro name type v h
    unfold VariableExpression.ctor at h
    split at h
    · rename_i href
      cases h
      refine ⟨href, ?_, ?_⟩
      · cases type <;> simp [isReference] at href <;>
          simp [VariableExpression.getPrintableType]
      · cases type <;> simp [isReference] at href <;>
          simp [VariableExpression.getPrintableName]
    · cases h

/-- C16 witness: the constructor accepts `x` of kind `INT_REF`, whose storage
type and storage name are then defined. -/
theorem assert_false_unreachable_witness :
    isReference sampleVariable.type = true ∧
    (∃ printableType, sampleVariable.getPrintableType = some printableType) ∧
    (∃ printableName, sampleVariable.getPrintableName = some printableName) :=
  assert_false_unreachable.2.2.2 "x" .INT_REF sampleVariable rfl

/-! ## Order properties of the tables (C18, C19) -/

/-- C18: `castableImplicitly` is a partial order on the nine types: reflexive,
transitive and antisymmetric. -/
theorem castableImplicitly_partial_order :
    (∀ a : GwType, castableImplicitly a a = true) ∧
    (∀ a b c : GwType, castableImplicitly a b = true → castableImplicitly b c = true →
      castableImplicitly a c = true) ∧
    (∀ a b : GwType, castableImplicitly a b = true → castableImplicitly b a = true →
      a = b) := by
  decide

/-- C18 witness: the chain `INT_REF`, `INT`, `DOUBLE`. -/
theorem castableImplicitly_partial_order_witness :
    castableImplicitly .INT_REF .DOUBLE = true :=
  castableImplicitly_partial_order.2.1 .INT_REF .INT .DOUBLE rfl rfl

/-- C19: no pair of types is both implicitly and explicitly castable; for every
numeric source type and every numeric value target type exactly one of the two
holds, so `castOrThrow` never throws `CastUnavailable` for them; and when the
target is a reference type or `VOID`, `castOrThrow` returns a node only if the
type of the expression equals the target. -/
theorem castable_tables_disjoint_and_cover :
    (∀ source target : GwType,
      ¬ (castableImplicitly source target = true ∧ castableExplicitly source target = true)) ∧
    (∀ source target : GwType, isNumeric source = true → isNumericValue target = true →
      ((castableImplicitly source target = true ∧ castableExplicitly source target = false) ∨
       (castableImplicitly source target = false ∧ castableExplicitly source target = true))) ∧
    (∀ (reg : logic.Registry) (fuel : Nat) (e : Expression) (t a b : GwType),
      isNumeric e.type = true → isNumericValue t = true →
        castOrThrow reg fuel e t ≠ .thrown (.CastUnavailable a b)) ∧
    (∀ (reg : logic.Registry) (fuel : Nat) (e : Expression) (t : GwType) (r : Expression),
      isReference t = true ∨ t = .VOID →
        castOrThrow reg fuel e t = .returned r → e.type = t) := by
  have hcover : ∀ source target : GwType, isNumeric source = true →
      isNumericValue target = true →
      ((castableImplicitly source target = true ∧ castableExplicitly source target = false) ∨
       (castableImplicitly source target = false ∧ castableExplicitly source target = true)) := by
    decide
  have hrefs : ∀ source target : GwType, (isReference target = true ∨ target = .VOID) →
      source ≠ target →
      castableImplicitly source target = false ∧ castableExplicitly source target = false := by
    decide
  refine ⟨by decide, hcover, ?_, ?_⟩
  · intro reg fuel e t a b hs ht h
    obtain ⟨h1, h2, _, _⟩ := castOrThrow_castUnavailable reg fuel e t a b h
    rcases hcover e.type t hs ht with ⟨h3, _⟩ | ⟨_, h3⟩
    · rw [h1] at h3; cases h3
    · rw [h2] at h3; cases h3
  · intro reg fuel e t r ht h
    by_contra hne
    obtain ⟨h1, h2⟩ := hrefs e.type t ht hne
    rw [castOrThrow_of_neither reg fuel e t h1 h2] at h
    cases h

/-- C19 witness: a `DOUBLE` cast to `INT` is covered by the explicit table, and a
cast to `INT_REF` that returns has an `INT_REF` source. -/
theorem castable_tables_disjoint_and_cover_witness :
    ((castableImplicitly .DOUBLE .INT = true ∧ castableExplicitly .DOUBLE .INT = false) ∨
     (castableImplicitly .DOUBLE .INT = false ∧ castableExplicitly .DOUBLE .INT = true)) ∧
    (Expression.variableRef sampleVariable).type = .INT_REF :=
  ⟨castable_tables_disjoint_and_cover.2.1 .DOUBLE .INT rfl rfl,
   castable_tables_disjoint_and_cover.2.2.2 regStandard 0 (.variableRef sampleVariable)
     .INT_REF (.casted (.variableRef sampleVariable) .INT_REF) (Or.inl rfl) rfl⟩

/-! ## Storage-name mangling (C20) -/

/-- The characters of a storage name: an underscore, the name, an underscore and
the suffix letter of the kind. -/
theorem getPrintableName_data (v : VariableExpression) (s : String)
    (h : v.getPrintableName = some s) :
    ∃ c : Char,
      ((v.type = .INT_REF ∧ c = 'i') ∨ (v.type = .FLOAT_REF ∧ c = 'f') ∨
        (v.type = .DOUBLE_REF ∧ c = 'd') ∨ (v.type = .STRING_REF ∧ c = 's')) ∧
      s.data = '_' :: (v.name.data ++ ['_', c]) := by
  obtain ⟨name, type⟩ := v
  have hu : "_".data = ['_'] := rfl
  cases type <;> simp only [VariableExpression.getPrintableName] at h <;>
    first
    | (cases h; done)
    | (cases h
       first
       | exact ⟨'i', by simp, by simp only [String.data_append]; rfl⟩
       | exact ⟨'f', by simp, by simp only [String.data_append]; rfl⟩
       | exact ⟨'d', by simp, by simp only [String.data_append]; rfl⟩
       | exact ⟨'s', by simp, by simp only [String.data_append]; rfl⟩)

/-- C20: storage-name mangling is injective and collision-free. Two Variable
References with the same storage name have the same name and the same kind; and no
storage name equals the name of a backing vector of any variable, which is a
storage name followed by `v` or by `i`. -/
theorem storage_names_injective :
    (∀ (v₁ v₂ : VariableExpression) (s : String),
      v₁.getPrintableName = some s → v₂.getPrintableName = some s → v₁ = v₂) ∧
    (∀ (v₁ v₂ : VariableExpression) (s₁ s₂ : String),
      v₁.getPrintableName = some s₁ → v₂.getPrintableName = some s₂ →
        s₁ ≠ s₂ ++ "v" ∧ s₁ ≠ s₂ ++ "i") := by
  constructor
  · intro v₁ v₂ s h₁ h₂
    obtain ⟨c₁, hc₁, hd₁⟩ := getPrintableName_data v₁ s h₁
    obtain ⟨c₂, hc₂, hd₂⟩ := getPrintableName_data v₂ s h₂
    rw [hd₁] at hd₂
    have htail := (List.cons.inj hd₂).2
    obtain ⟨hn, hs⟩ := List.append_inj' htail rfl
    have hc : c₁ = c₂ := by
      have := (List.cons.inj hs).2
      exact (List.cons.inj this).1
    have hname : v₁.name = v₂.name := String.ext hn
    have htype : v₁.type = v₂.type := by
      subst hc
      rcases hc₁ with ⟨t₁, e₁⟩ | ⟨t₁, e₁⟩ | ⟨t₁, e₁⟩ | ⟨t₁, e₁⟩ <;>
        rcases hc₂ with ⟨t₂, e₂⟩ | ⟨t₂, e₂⟩ | ⟨t₂, e₂⟩ | ⟨t₂, e₂⟩ <;>
        first
        | (rw [e₁] at e₂; exact absurd e₂ (by decide))
        | (rw [t₁, t₂])
    obtain ⟨n₁, k₁⟩ := v₁
    obtain ⟨n₂, k₂⟩ := v₂
    simp only at hname htype
    rw [hname, htype]
  · intro v₁ v₂ s₁ s₂ h₁ h₂
    obtain ⟨c₁, hc₁, hd₁⟩ := getPrintableName_data v₁ s₁ h₁
    obtain ⟨c₂, hc₂, hd₂⟩ := getPrintableName_data v₂ s₂ h₂
    have hv : "v".data = ['v'] := rfl
    have hi : "i".data = ['i'] := rfl
    have hc₁' : c₁ ≠ 'v' := by
      rcases hc₁ with ⟨_, e⟩ | ⟨_, e⟩ | ⟨_, e⟩ | ⟨_, e⟩ <;> (rw [e]; decide)
    have hc₂' : c₂ ≠ '_' := by
      rcases hc₂ with ⟨_, e⟩ | ⟨_, e⟩ | ⟨_, e⟩ | ⟨_, e⟩ <;> (rw [e]; decide)
    constructor
    · intro heq
      have hdata := congrArg String.data heq
      rw [String.data_append, hd₁, hd₂, hv] at hdata
      have htail : v₁.name.data ++ ['_', c₁] = (v₂.name.data ++ ['_']) ++ [c₂, 'v'] := by
        have := (List.cons.inj hdata).2
        simpa using this
      obtain ⟨_, hs⟩ := List.append_inj' htail rfl
      have := (List.cons.inj hs).2
      exact hc₁' (List.cons.inj this).1
    · intro heq
      have hdata := congrArg String.data heq
      rw [String.data_append, hd₁, hd₂, hi] at hdata
      have htail : v₁.name.data ++ ['_', c₁] = (v₂.name.data ++ ['_']) ++ [c₂, 'i'] := by
        have := (List.cons.inj hdata).2
        simpa using this
      obtain ⟨_, hs⟩ := List.append_inj' htail rfl
      exact hc₂' (List.cons.inj hs).1.symm

/-- C20 witness: the storage name `_x_i` of `x` of kind `INT_REF` belongs to that
variable only and is none of its backing-vector names `_x_iv`, `_x_ii`. -/
theorem storage_names_injective_witness :
    sampleVariable.getPrintableName = some "_x_i" ∧
    (⟨"x", .INT_REF⟩ : VariableExpression) = sampleVariable ∧
    ("_x_i" ≠ "_x_i" ++ "v" ∧ "_x_i" ≠ "_x_i" ++ "i") :=
  ⟨rfl, storage_names_injective.1 ⟨"x", .INT_REF⟩ sampleVariable "_x_i" rfl rfl,
   storage_names_injective.2 sampleVariable sampleVariable "_x_i" "_x_i" rfl rfl⟩

/-! ## The list-valued cast (C11) -/

/-- The list-valued cast returns exactly when every element's cast returns, with
the results in order. -/
theorem castOrThrowEach_returned_iff (reg : logic.Registry) (fuel : Nat)
    (expressions : List Expression) (targetType : GwType) (out : List Expression) :
    castOrThrowEach reg fuel expressions targetType = .returned out ↔
      List.Forall₂ (fun e c => castOrThrow reg fuel e targetType = .returned c)
        expressions out := by
  induction expressions generalizing out with
  | nil =>
    simp only [castOrThrowEach, List.forall₂_nil_left_iff]
    constructor
    · intro h; cases h; rfl
    · intro h; rw [h]
  | cons e rest ih =>
    simp only [castOrThrowEach, List.forall₂_cons_left_iff]
    cases hc : castOrThrow reg fuel e targetType with
    | returned c =>
      cases hr : castOrThrowEach reg fuel rest targetType with
      | returned others =>
        simp only [Outcome.returned.injEq]
        constructor
        · intro h
          exact ⟨c, others, rfl, (ih others).mp hr, h.symm⟩
        · rintro ⟨b, us, hb, hus, rfl⟩
          cases hb
          have := (ih us).mpr hus
          rw [hr] at this
          cases this
          rfl
      | thrown err =>
        constructor
        · intro h; cases h
        · rintro ⟨b, us, _, hus, _⟩
          have := (ih us).mpr hus
          rw [hr] at this
          cases this
      | diverged =>
        constructor
        · intro h; cases h
        · rintro ⟨b, us, _, hus, _⟩
          have := (ih us).mpr hus
          rw [hr] at this
          cases this
      | aborted =>
        constructor
        · intro h; cases h
        · rintro ⟨b, us, _, hus, _⟩
          have := (ih us).mpr hus
          rw [hr] at this
          cases this
    | thrown err => simp
    | diverged => simp
    | aborted => simp

/-- The list-valued cast throws what the first cast that does not return throws. -/
theorem castOrThrowEach_first_thrown (reg : logic.Registry) (fuel : Nat)
    (targetType : GwType) (done : List Expression) (e : Expression)
    (rest : List Expression) (err : Error)
    (hdone : ∀ d ∈ done, ∃ c, castOrThrow reg fuel d targetType = .returned c)
    (he : castOrThrow reg fuel e targetType = .thrown err) :
    castOrThrowEach reg fuel (done ++ e :: rest) targetType = .thrown err := by
  induction done with
  | nil =>
    simp only [List.nil_append, castOrThrowEach]
    rw [he]
  | cons d ds ih =>
    obtain ⟨c, hc⟩ := hdone d (List.mem_cons_self _ _)
    have hrest := ih (fun d' hd' => hdone d' (List.mem_cons_of_mem _ hd'))
    rw [List.cons_append, castOrThrowEach, hc]
    simp only
    rw [hrest]

/-- C11: the list-valued `castOrThrow` returns a list exactly when the cast of
every element returns; the list then has the length of the input and its i-th
element is the cast of the i-th input element. If the cast of some element throws
while the casts of all elements before it return, the list-valued cast throws that
error. Array Resize and Array Element Access are built from it with target `INT`. -/
theorem castOrThrowEach_spec (reg : logic.Registry) (fuel : Nat)
    (expressions : List Expression) (targetType : GwType) :
    (∀ out, castOrThrowEach reg fuel expressions targetType = .returned out ↔
      List.Forall₂ (fun e c => castOrThrow reg fuel e targetType = .returned c)
        expressions out) ∧
    (∀ out, castOrThrowEach reg fuel expressions targetType = .returned out →
      out.length = expressions.length) ∧
    (∀ done e rest err, expressions = done ++ e :: rest →
      (∀ d ∈ done, ∃ c, castOrThrow reg fuel d targetType = .returned c) →
      castOrThrow reg fuel e targetType = .thrown err →
      castOrThrowEach reg fuel expressions targetType = .thrown err) ∧
    (∀ variable_ r, VectorDimExpression.ctor reg fuel variable_ expressions = .returned r ↔
      ∃ out, castOrThrowEach reg fuel expressions .INT = .returned out ∧
        r = .vectorDim variable_ out) ∧
    (∀ variable_ r,
      VectorGetElementExpression.ctor reg fuel variable_ expressions = .returned r ↔
      ∃ out, castOrThrowEach reg fuel expressions .INT = .returned out ∧
        r = .vectorGetElement variable_ out) := by
  refine ⟨castOrThrowEach_returned_iff reg fuel expressions targetType, ?_, ?_, ?_, ?_⟩
  · intro out h
    exact ((castOrThrowEach_returned_iff reg fuel expressions targetType out).mp h).length_eq.symm
  · intro done e rest err hsplit hdone he
    rw [hsplit]
    exact castOrThrowEach_first_thrown reg fuel targetType done e rest err hdone he
  · intro variable_ r
    unfold VectorDimExpression.ctor
    cases castOrThrowEach reg fuel expressions .INT with
    | returned out =>
      constructor
      · intro h; cases h; exact ⟨out, rfl, rfl⟩
      · rintro ⟨out', h1, h2⟩; cases h1; rw [h2]
    | thrown err => constructor <;> [(intro h; cases h); (rintro ⟨_, h1, _⟩; cases h1)]
    | diverged => constructor <;> [(intro h; cases h); (rintro ⟨_, h1, _⟩; cases h1)]
    | aborted => constructor <;> [(intro h; cases h); (rintro ⟨_, h1, _⟩; cases h1)]
  · intro variable_ r
    unfold VectorGetElementExpression.ctor
    cases castOrThrowEach reg fuel expressions .INT with
    | returned out =>
      constructor
      · intro h; cases h; exact ⟨out, rfl, rfl⟩
      · rintro ⟨out', h1, h2⟩; cases h1; rw [h2]
    | thrown err => constructor <;> [(intro h; cases h); (rintro ⟨_, h1, _⟩; cases h1)]
    | diverged => constructor <;> [(intro h; cases h); (rintro ⟨_, h1, _⟩; cases h1)]
    | aborted => constructor <;> [(intro h; cases h); (rintro ⟨_, h1, _⟩; cases h1)]

/-- C11 witness: in `regStandard`, the sizes `5` and `1.5` cast to `INT` give the
wrapper around `5` and the call `cint(1.5)`, in that order; and with the string
constant in second place the cast throws that element's error. -/
theorem castOrThrowEach_spec_witness :
    castOrThrowEach regStandard 1 [sampleInt, sampleDouble] .INT
      = .returned [.casted sampleInt .INT, .function sigCint_double [sampleDouble]] ∧
    castOrThrowEach regStandard 1 [sampleInt, samplePrompt, sampleDouble] .INT
      = .thrown (.CastUnavailable .STRING .INT) :=
  ⟨((castOrThrowEach_spec regStandard 1 [sampleInt, sampleDouble] .INT).1 _).mpr
      (List.Forall₂.cons rfl (List.Forall₂.cons rfl List.Forall₂.nil)),
   (castOrThrowEach_spec regStandard 1 [sampleInt, samplePrompt, sampleDouble] .INT).2.2.1
      [sampleInt] samplePrompt [sampleDouble] _ rfl
      (by intro d hd; rw [List.mem_singleton] at hd; rw [hd]; exact ⟨_, rfl⟩) rfl⟩

/-! ## Declarations of Variable References (C13) -/

/-- C13: running `provideInfo` for two Variable References with the same name and
the same reference kind, from the empty collector, leaves exactly one declaration,
the string `<storage type> <storage name> = <default>`, and leaves the library
modules and the signatures empty. For `x` the declaration is `gw_int _x_i = 0` for
kind `INT_REF` and `std::string _x_s = ""` for kind `STRING_REF`. -/
theorem variable_declared_once (name : String) (kind : GwType)
    (hkind : isReference kind = true) :
    (∃ storageType storageName,
      (VariableExpression.mk name kind).getPrintableType = some storageType ∧
      (VariableExpression.mk name kind).getPrintableName = some storageName ∧
      provideInfoEach [.variableRef ⟨name, kind⟩, .variableRef ⟨name, kind⟩] ProgramInfo.empty
        = some ⟨{storageType ++ " " ++ storageName ++ " = " ++
                  (VariableExpression.mk name kind).getPrintableDefaultValue}, ∅, ∅⟩) ∧
    provideInfoEach [.variableRef ⟨name, .INT_REF⟩, .variableRef ⟨name, .INT_REF⟩]
        ProgramInfo.empty
      = some ⟨{"gw_int _" ++ name ++ "_i = 0"}, ∅, ∅⟩ ∧
    provideInfoEach [.variableRef ⟨name, .FLOAT_REF⟩, .variableRef ⟨name, .FLOAT_REF⟩]
        ProgramInfo.empty
      = some ⟨{"float _" ++ name ++ "_f = 0"}, ∅, ∅⟩ ∧
    provideInfoEach [.variableRef ⟨name, .DOUBLE_REF⟩, .variableRef ⟨name, .DOUBLE_REF⟩]
        ProgramInfo.empty
      = some ⟨{"double _" ++ name ++ "_d = 0"}, ∅, ∅⟩ ∧
    provideInfoEach [.variableRef ⟨name, .STRING_REF⟩, .variableRef ⟨name, .STRING_REF⟩]
        ProgramInfo.empty
      = some ⟨{"std::string _" ++ name ++ "_s = \"\""}, ∅, ∅⟩ ∧
    provideInfoEach [.variableRef ⟨"x", .INT_REF⟩, .variableRef ⟨"x", .INT_REF⟩]
        ProgramInfo.empty
      = some ⟨{"gw_int _x_i = 0"}, ∅, ∅⟩ ∧
    provideInfoEach [.variableRef ⟨"x", .STRING_REF⟩, .variableRef ⟨"x", .STRING_REF⟩]
        ProgramInfo.empty
      = some ⟨{"std::string _x_s = \"\""}, ∅, ∅⟩ := by
  have hi : "gw_int" ++ " " ++ ("_" ++ name ++ "_i") ++ " = " ++ "0"
      = "gw_int _" ++ name ++ "_i = 0" := by
    apply String.ext
    simp only [String.data_append, List.append_assoc]
    rfl
  have hf : "float" ++ " " ++ ("_" ++ name ++ "_f") ++ " = " ++ "0"
      = "float _" ++ name ++ "_f = 0" := by
    apply String.ext
    simp only [String.data_append, List.append_assoc]
    rfl
  have hd : "double" ++ " " ++ ("_" ++ name ++ "_d") ++ " = " ++ "0"
      = "double _" ++ name ++ "_d = 0" := by
    apply String.ext
    simp only [String.data_append, List.append_assoc]
    rfl
  have hs : "std::string" ++ " " ++ ("_" ++ name ++ "_s") ++ " = " ++ "\"\""
      = "std::string _" ++ name ++ "_s = \"\"" := by
    apply String.ext
    simp only [String.data_append, List.append_assoc]
    rfl
  refine ⟨?_, ?_, ?_, ?_, ?_, ?_, ?_⟩
  · cases kind <;> simp [isReference] at hkind
    · exact ⟨"gw_int", "_" ++ name ++ "_i", rfl, rfl, by
        simp [provideInfoEach, provideInfo, VariableExpression.getPrintableType,
          VariableExpression.getPrintableName, ProgramInfo.empty]⟩
    · exact ⟨"float", "_" ++ name ++ "_f", rfl, rfl, by
        simp [provideInfoEach, provideInfo, VariableExpression.getPrintableType,
          VariableExpression.getPrintableName, ProgramInfo.empty]⟩
    · exact ⟨"double", "_" ++ name ++ "_d", rfl, rfl, by
        simp [provideInfoEach, provideInfo, VariableExpression.getPrintableType,
          VariableExpression.getPrintableName, ProgramInfo.empty]⟩
    · exact ⟨"std::string", "_" ++ name ++ "_s", rfl, rfl, by
        simp [provideInfoEach, provideInfo, VariableExpression.getPrintableType,
          VariableExpression.getPrintableName, ProgramInfo.empty]⟩
  · rw [← hi]
    simp [provideInfoEach, provideInfo, VariableExpression.getPrintableType,
      VariableExpression.getPrintableName, VariableExpression.getPrintableDefaultValue,
      ProgramInfo.empty]
  · rw [← hf]
    simp [provideInfoEach, provideInfo, VariableExpression.getPrintableType,
      VariableExpression.getPrintableName, VariableExpression.getPrintableDefaultValue,
      ProgramInfo.empty]
  · rw [← hd]
    simp [provideInfoEach, provideInfo, VariableExpression.getPrintableType,
      VariableExpression.getPrintableName, VariableExpression.getPrintableDefaultValue,
      ProgramInfo.empty]
  · rw [← hs]
    simp [provideInfoEach, provideInfo, VariableExpression.getPrintableType,
      VariableExpression.getPrintableName, VariableExpression.getPrintableDefaultValue,
      ProgramInfo.empty]
  · simp [provideInfoEach, provideInfo, VariableExpression.getPrintableType,
      VariableExpression.getPrintableName, VariableExpression.getPrintableDefaultValue,
      ProgramInfo.empty]
  · simp [provideInfoEach, provideInfo, VariableExpression.getPrintableType,
      VariableExpression.getPrintableName, VariableExpression.getPrintableDefaultValue,
      ProgramInfo.empty]

/-- C13 witness: the variable `total` of kind `DOUBLE_REF`. -/
theorem variable_declared_once_witness :
    ∃ storageType storageName,
      (VariableExpression.mk "total" .DOUBLE_REF).getPrintableType = some storageType ∧
      (VariableExpression.mk "total" .DOUBLE_REF).getPrintableName = some storageName ∧
      provideInfoEach
          [.variableRef ⟨"total", .DOUBLE_REF⟩, .variableRef ⟨"total", .DOUBLE_REF⟩]
          ProgramInfo.empty
        = some ⟨{storageType ++ " " ++ storageName ++ " = " ++
                  (VariableExpression.mk "total" .DOUBLE_REF).getPrintableDefaultValue}, ∅, ∅⟩ :=
  (variable_declared_once "total" .DOUBLE_REF rfl).1

/-! ## Rendering of the Print Statement (C14) -/

/-- The renders of a list are defined exactly when every element renders. -/
theorem printEach_eq_some_iff (expressions : List Expression) (parts : List String) :
    printEach expressions = some parts ↔
      List.Forall₂ (fun e text => print e = some text) expressions parts := by
  induction expressions generalizing parts with
  | nil =>
    rw [printEach, List.forall₂_nil_left_iff]
    constructor
    · intro h; cases h; rfl
    · intro h; rw [h]
  | cons e rest ih =>
    rw [printEach, List.forall₂_cons_left_iff]
    cases he : print e with
    | none =>
      constructor
      · intro h; simp at h
      · rintro ⟨text, tail, h1, _, _⟩; cases h1
    | some text =>
      cases hr : printEach rest with
      | none =>
        constructor
        · intro h; simp at h
        · rintro ⟨text', tail, _, h2, _⟩
          have := (ih tail).mpr h2
          rw [hr] at this
          cases this
      | some tail =>
        constructor
        · intro h
          simp only [Option.some.injEq] at h
          exact ⟨text, tail, rfl, (ih tail).mp hr, h.symm⟩
        · rintro ⟨text', tail', h1, h2, rfl⟩
          cases h1
          have := (ih tail').mpr h2
          rw [hr] at this
          cases this
          rfl

/-- C14: for a Print Statement whose stored sub-expressions render as `parts`,
`print` produces `print({`, the parts separated by commas, then, only when the
trailing-terminator flag is set, the rendered newline constant, preceded by a comma
exactly when there is at least one sub-expression, and finally `})`. With the flag
unset the text is `print({e1,...,en})`; with no sub-expression and the flag set it
is `print({` followed by the newline constant and `})`. -/
theorem print_printStmt (expressions : List Expression) (printNewLine : Bool)
    (newLineExpression : ConstExpression) (parts : List String)
    (hparts : List.Forall₂ (fun e text => print e = some text) expressions parts) :
    print (.const newLineExpression) = some newLineExpression.valueToPrint ∧
    print (.printStmt expressions printNewLine newLineExpression)
      = some ("print(\x7b" ++ ",".intercalate parts ++
          (if printNewLine then
            (if 0 < expressions.length then "," else "") ++ newLineExpression.valueToPrint
           else "") ++ "\x7d)") ∧
    (printNewLine = false →
      print (.printStmt expressions printNewLine newLineExpression)
        = some ("print(\x7b" ++ ",".intercalate parts ++ "\x7d)")) ∧
    (expressions = [] → printNewLine = true →
      print (.printStmt expressions printNewLine newLineExpression)
        = some ("print(\x7b" ++ newLineExpression.valueToPrint ++ "\x7d)")) := by
  have hall := (printEach_eq_some_iff expressions parts).mpr hparts
  have hmain : print (.printStmt expressions printNewLine newLineExpression)
      = some ("print(\x7b" ++ ",".intercalate parts ++
          (if printNewLine then
            (if 0 < expressions.length then "," else "") ++ newLineExpression.valueToPrint
           else "") ++ "\x7d)") := by
    rw [print, hall]
    cases expressions <;> simp
  refine ⟨by rw [print], hmain, ?_, ?_⟩
  · intro hflag
    rw [hmain, hflag]
    simp
  · intro hnil hflag
    rw [hmain, hflag]
    subst hnil
    cases hparts
    simp [String.intercalate]

/-- C14 witness: the Print Statement over `5` and `1.5` with the terminator flag
set and the newline constant built as the constructor builds it, `util::escape`
taken as the identity. -/
theorem print_printStmt_witness :
    print (.printStmt [sampleInt, sampleDouble] true (StringConstExpression id "\n"))
      = some "print(\x7b5,1.5,\"\n\"\x7d)" :=
  (print_printStmt [sampleInt, sampleDouble] true (StringConstExpression id "\n")
    ["5", "1.5"] (List.Forall₂.cons rfl (List.Forall₂.cons rfl List.Forall₂.nil))).2.1

/-! ## The collector pass is a union (C12) -/

theorem ProgramInfo.ext_fields {a b : ProgramInfo}
    (h1 : a.variableDefinitions = b.variableDefinitions) (h2 : a.coreFiles = b.coreFiles)
    (h3 : a.logicFiles = b.logicFiles) : a = b := by
  cases a
  cases b
  simp only at h1 h2 h3
  rw [h1, h2, h3]

theorem ProgramInfo.union_assoc (a b c : ProgramInfo) :
    (a.union b).union c = a.union (b.union c) := by
  apply ProgramInfo.ext_fields <;> simp [ProgramInfo.union, Finset.union_assoc]

theorem ProgramInfo.union_empty (a : ProgramInfo) : a.union ProgramInfo.empty = a := by
  apply ProgramInfo.ext_fields <;> simp [ProgramInfo.union, ProgramInfo.empty]

theorem ProgramInfo.union_right_comm (a b c : ProgramInfo) :
    (a.union b).union c = (a.union c).union b := by
  apply ProgramInfo.ext_fields <;>
    (simp only [ProgramInfo.union]; exact Finset.union_right_comm _ _ _)

theorem ProgramInfo.union_union_self (a b : ProgramInfo) :
    (a.union b).union b = a.union b := by
  apply ProgramInfo.ext_fields <;> simp [ProgramInfo.union, Finset.union_assoc]

theorem ProgramInfo.subset_union (a b : ProgramInfo) : a.subset (a.union b) := by
  refine ⟨?_, ?_, ?_⟩ <;> simp [ProgramInfo.union, Finset.subset_union_left]

/-- A reference-typed variable has a storage type and a storage name. -/
theorem printable_of_isReference (v : VariableExpression) (h : isReference v.type = true) :
    ∃ storageType storageName,
      v.getPrintableType = some storageType ∧ v.getPrintableName = some storageName := by
  obtain ⟨name, type⟩ := v
  cases type <;> simp [isReference] at h <;>
    simp [VariableExpression.getPrintableType, VariableExpression.getPrintableName]

mutual
/-- On a well-formed tree the pass adds a fixed triple of sets to the collector. -/
theorem provideInfo_eq_union : ∀ (e : Expression), wellFormed e = true →
    ∃ C : ProgramInfo, ∀ P, provideInfo e P = some (P.union C)
  | .const c, _ =>
    ⟨ProgramInfo.empty, fun P => by
      rw [provideInfo, ProgramInfo.union_empty]; rfl⟩
  | .variableRef v, h => by
    rw [wellFormed] at h
    obtain ⟨ty, nm, hty, hnm⟩ := printable_of_isReference v h
    refine ⟨⟨{ty ++ " " ++ nm ++ " = " ++ v.getPrintableDefaultValue}, ∅, ∅⟩, fun P => ?_⟩
    rw [provideInfo, hty, hnm]
    simp only [Option.some.injEq]
    apply ProgramInfo.ext_fields <;> simp [ProgramInfo.union, Finset.insert_eq, Finset.union_comm]
  | .vectorDim v new_sizes, h => by
    rw [wellFormed, Bool.and_eq_true] at h
    obtain ⟨ty, nm, hty, hnm⟩ := printable_of_isReference v h.1
    obtain ⟨C, hC⟩ := provideInfoEach_eq_union new_sizes h.2
    refine ⟨(ProgramInfo.mk
      {"std::vector<gw_int> " ++ nm ++ "i = \x7b \x7d",
        "std::vector<" ++ ty ++ "> " ++ nm ++ "v = \x7b \x7d"}
      {core.Module.vector} ∅).union C, fun P => ?_⟩
    rw [provideInfo, hty, hnm]
    simp only
    rw [hC, ← ProgramInfo.union_assoc]
    simp only [Option.some.injEq]
    congr 1
    apply ProgramInfo.ext_fields <;>
      simp [ProgramInfo.union, Finset.insert_eq, Finset.union_comm, Finset.union_left_comm]
  | .vectorGetElement v indexes, h => by
    rw [wellFormed, Bool.and_eq_true] at h
    obtain ⟨ty, nm, hty, hnm⟩ := printable_of_isReference v h.1
    obtain ⟨C, hC⟩ := provideInfoEach_eq_union indexes h.2
    refine ⟨(ProgramInfo.mk
      {"std::vector<gw_int> " ++ nm ++ "i = \x7b \x7d",
        "std::vector<" ++ ty ++ "> " ++ nm ++ "v = \x7b \x7d"}
      {core.Module.vector} ∅).union C, fun P => ?_⟩
    rw [provideInfo, hty, hnm]
    simp only
    rw [hC, ← ProgramInfo.union_assoc]
    simp only [Option.some.injEq]
    congr 1
    apply ProgramInfo.ext_fields <;>
      simp [ProgramInfo.union, Finset.insert_eq, Finset.union_comm, Finset.union_left_comm]
  | .function logicFile argumentList, h => by
    rw [wellFormed] at h
    obtain ⟨C, hC⟩ := provideInfoEach_eq_union argumentList h
    refine ⟨(ProgramInfo.mk ∅ ∅ {logicFile}).union C, fun P => ?_⟩
    rw [provideInfo, hC, ← ProgramInfo.union_assoc]
    simp only [Option.some.injEq]
    congr 1
    apply ProgramInfo.ext_fields <;>
      simp [ProgramInfo.union, Finset.insert_eq, Finset.union_comm]
  | .casted expression _, h => by
    rw [wellFormed] at h
    obtain ⟨C, hC⟩ := provideInfo_eq_union expression h
    exact ⟨C, fun P => by rw [provideInfo, hC]⟩
  | .printStmt expressions printNewLine newLineExpression, h => by
    rw [wellFormed] at h
    obtain ⟨C, hC⟩ := provideInfoEach_eq_union expressions h
    refine ⟨C.union (ProgramInfo.mk ∅ {core.Module.print} ∅), fun P => ?_⟩
    rw [provideInfo, hC]
    simp only [ConstExpression.provideInfo, ite_self, Option.some.injEq]
    rw [← ProgramInfo.union_assoc]
    apply ProgramInfo.ext_fields <;>
      simp [ProgramInfo.union, Finset.insert_eq, Finset.union_comm]
  | .input prompt expressions, h => by
    rw [wellFormed, Bool.and_eq_true] at h
    obtain ⟨C₁, hC₁⟩ := provideInfo_eq_union prompt h.1
    obtain ⟨C₂, hC₂⟩ := provideInfoEach_eq_union expressions h.2
    refine ⟨(C₁.union C₂).union (ProgramInfo.mk ∅ {core.Module.input} ∅), fun P => ?_⟩
    rw [provideInfo, hC₁]
    simp only
    rw [hC₂]
    simp only [Option.some.injEq]
    rw [← ProgramInfo.union_assoc, ← ProgramInfo.union_assoc]
    apply ProgramInfo.ext_fields <;>
      simp [ProgramInfo.union, Finset.insert_eq, Finset.union_comm]
/-- The same for the loop over a list of well-formed trees. -/
theorem provideInfoEach_eq_union : ∀ (es : List Expression), wellFormedEach es = true →
    ∃ C : ProgramInfo, ∀ P, provideInfoEach es P = some (P.union C)
  | [], _ => ⟨ProgramInfo.empty, fun P => by rw [provideInfoEach, ProgramInfo.union_empty]⟩
  | e :: rest, h => by
    rw [wellFormedEach, Bool.and_eq_true] at h
    obtain ⟨C₁, hC₁⟩ := provideInfo_eq_union e h.1
    obtain ⟨C₂, hC₂⟩ := provideInfoEach_eq_union rest h.2
    refine ⟨C₁.union C₂, fun P => ?_⟩
    rw [provideInfoEach, hC₁]
    simp only
    rw [hC₂, ProgramInfo.union_assoc]
end

/-- C12: for every expression tree whose Variable References passed their
constructor's assertion there is a triple of sets `C`, depending on the tree only,
such that `provideInfo` turns every collector `P` into the componentwise union of
`P` and `C`. Consequently the pass never removes an entry, running it twice on the
same tree gives what running it once gives, and running it over two trees gives the
same collector in either order. -/
theorem provideInfo_is_union (e : Expression) (he : wellFormed e = true) :
    ∃ C : ProgramInfo,
      (∀ P, provideInfo e P = some (P.union C)) ∧
      (∀ P Q, provideInfo e P = some Q → P.subset Q) ∧
      (∀ P, (provideInfo e P).bind (provideInfo e) = provideInfo e P) ∧
      (∀ e', wellFormed e' = true → ∀ P,
        (provideInfo e P).bind (provideInfo e') = (provideInfo e' P).bind (provideInfo e)) := by
  obtain ⟨C, hC⟩ := provideInfo_eq_union e he
  refine ⟨C, hC, ?_, ?_, ?_⟩
  · intro P Q h
    rw [hC] at h
    cases h
    exact ProgramInfo.subset_union P C
  · intro P
    rw [hC, Option.some_bind, hC, ProgramInfo.union_union_self]
  · intro e' he' P
    obtain ⟨C', hC'⟩ := provideInfo_eq_union e' he'
    rw [hC, hC', Option.some_bind, Option.some_bind, hC, hC', ProgramInfo.union_right_comm]

/-- C12 witness: the Array Resize of `x` by `5`. -/
theorem provideInfo_is_union_witness :
    ∃ C : ProgramInfo,
      (∀ P, provideInfo (.vectorDim sampleVariable [sampleInt]) P = some (P.union C)) ∧
      (∀ P Q, provideInfo (.vectorDim sampleVariable [sampleInt]) P = some Q → P.subset Q) ∧
      (∀ P, (provideInfo (.vectorDim sampleVariable [sampleInt]) P).bind
          (provideInfo (.vectorDim sampleVariable [sampleInt]))
        = provideInfo (.vectorDim sampleVariable [sampleInt]) P) ∧
      (∀ e', wellFormed e' = true → ∀ P,
        (provideInfo (.vectorDim sampleVariable [sampleInt]) P).bind (provideInfo e')
          = (provideInfo e' P).bind (provideInfo (.vectorDim sampleVariable [sampleInt]))) :=
  provideInfo_is_union (.vectorDim sampleVariable [sampleInt]) rfl

/-! ## Returned calls are registered and type-correct (C17) -/

/-- With conversion functions that return the type they convert to, a node
returned by `castOrThrow` has the target type. -/
theorem castOrThrow_returned_type (reg : logic.Registry) (hreg : conversionsReturnTarget reg)
    (fuel : Nat) (e : Expression) (t : GwType) (r : Expression)
    (h : castOrThrow reg fuel e t = .returned r) : r.type = t := by
  cases hi : castableImplicitly e.type t with
  | true =>
    rw [castOrThrow_of_implicit reg fuel e t hi] at h
    cases h
    rfl
  | false =>
    cases hx : castableExplicitly e.type t with
    | true =>
      obtain ⟨functionName, logicFiles, f, argumentList, hconv, hlook, hmem, hr⟩ :=
        castOrThrow_explicit_bound reg fuel e t r hx hi h
      rw [hr]
      show f.returnType = t
      rcases hconv with ⟨ht, hn⟩ | ⟨ht, hn⟩
      · rw [ht]; rw [hn] at hlook; exact hreg.1 logicFiles hlook f hmem
      · rw [ht]; rw [hn] at hlook; exact hreg.2 logicFiles hlook f hmem
    | false =>
      rw [castOrThrow_of_neither reg fuel e t hi hx] at h
      cases h

theorem castableImplicitly_refl : ∀ t : GwType, castableImplicitly t t = true := by
  decide

/-- A property of all zipped positions of two lists of equal length relates the
lists elementwise. -/
theorem forall₂_of_zip_all {α β : Type} (q : α → β → Bool) :
    ∀ (l₁ : List α) (l₂ : List β), l₂.length = l₁.length →
      (l₁.zip l₂).all (fun pos => q pos.1 pos.2) = true →
      List.Forall₂ (fun a b => q a b = true) l₁ l₂
  | [], [], _, _ => List.Forall₂.nil
  | [], _ :: _, hlen, _ => by simp at hlen
  | _ :: _, [], hlen, _ => by simp at hlen
  | a :: l₁, b :: l₂, hlen, hall => by
    simp only [List.zip_cons_cons, List.all_cons, Bool.and_eq_true] at hall
    exact List.Forall₂.cons hall.1
      (forall₂_of_zip_all q l₁ l₂ (by simpa using hlen) hall.2)

/-- Results related to the zipped positions of two lists of equal length are
related to the second list. -/
theorem forall₂_of_forall₂_zip {α β γ : Type} (rel : α × β → γ → Prop)
    (goal : γ → β → Prop) (hstep : ∀ a b c, rel (a, b) c → goal c b) :
    ∀ (l₁ : List α) (l₂ : List β) (out : List γ), l₂.length = l₁.length →
      List.Forall₂ rel (l₁.zip l₂) out → List.Forall₂ goal out l₂
  | [], [], out, _, h => by
    simp only [List.zip_nil_left, List.forall₂_nil_left_iff] at h
    rw [h]
    exact List.Forall₂.nil
  | [], _ :: _, _, hlen, _ => by simp at hlen
  | _ :: _, [], _, hlen, _ => by simp at hlen
  | a :: l₁, b :: l₂, out, hlen, h => by
    simp only [List.zip_cons_cons, List.forall₂_cons_left_iff] at h
    obtain ⟨c, tail, hc, htail, rfl⟩ := h
    exact List.Forall₂.cons (hstep a b c hc)
      (forall₂_of_forall₂_zip rel goal hstep l₁ l₂ tail (by simpa using hlen) htail)

/-- C17: every Function Call returned by `retrieveFunctionExpression name args` is
bound to a signature in the registry's candidate list for `name` whose arity is the
number of supplied arguments, and carries that many arguments; and provided every
signature registered under `cint` returns `INT` and every signature registered
under `csng` returns `FLOAT`, the type of each returned argument is implicitly
castable to the parameter type of the bound signature at its position. -/
theorem retrieve_returns_registered_call (reg : logic.Registry) (fuel : Nat)
    (name : String) (argumentList : List Expression) (r : Expression)
    (h : retrieveFunctionExpression reg fuel name argumentList = .returned r) :
    ∃ logicFiles f casted,
      reg name = some logicFiles ∧ f ∈ logicFiles ∧ r = .function f casted ∧
      f.argumentTypes.length = argumentList.length ∧
      casted.length = argumentList.length ∧
      (conversionsReturnTarget reg →
        List.Forall₂ (fun a p => castableImplicitly a.type p = true) casted f.argumentTypes) := by
  unfold retrieveFunctionExpression at h
  obtain ⟨logicFiles, f, hreg, hmem, hcase⟩ := retrieveWith_returned _ reg name argumentList r h
  rcases hcase with ⟨hex, hr⟩ | ⟨_, hk, casted, hcast, hr⟩
  · simp only [isExactMatch, Bool.and_eq_true, decide_eq_true_eq] at hex
    refine ⟨logicFiles, f, argumentList, hreg, hmem, hr, hex.1, rfl, fun _ => ?_⟩
    exact forall₂_of_zip_all (fun a p => castableImplicitly a.type p) argumentList
      f.argumentTypes hex.1 hex.2
  · have hlen : f.argumentTypes.length = argumentList.length := by
      simp only [isCorrectableMatch, Bool.and_eq_true, decide_eq_true_eq] at hk
      exact hk.1
    have hall := (castArguments_returned_iff _ _ _ _).mp hcast
    refine ⟨logicFiles, f, casted, hreg, hmem, hr, hlen, ?_, fun hret => ?_⟩
    · have := hall.length_eq
      rw [List.length_zip, hlen, Nat.min_self] at this
      exact this.symm
    · refine forall₂_of_forall₂_zip _ _ ?_ argumentList f.argumentTypes casted hlen hall
      intro a p c hc
      have hty : c.type = p := castOrThrow_returned_type reg hret fuel a p c hc
      rw [hty]
      exact castableImplicitly_refl p

/-- C17 witness: in `regStandard`, `h` applied to the double constant returns the
call of `f(FLOAT)` on `csng(1.5)`. -/
theorem retrieve_returns_registered_call_witness :
    ∃ logicFiles f casted,
      regStandard "h" = some logicFiles ∧ f ∈ logicFiles ∧
      Expression.function sigF_float [.function sigCsng_double [sampleDouble]]
        = .function f casted ∧
      f.argumentTypes.length = [sampleDouble].length ∧
      casted.length = [sampleDouble].length ∧
      (conversionsReturnTarget regStandard →
        List.Forall₂ (fun a p => castableImplicitly a.type p = true) casted f.argumentTypes) :=
  retrieve_returns_registered_call regStandard 1 "h" [sampleDouble]
    (.function sigF_float [.function sigCsng_double [sampleDouble]]) rfl

/-! ## Termination of cast insertion and resolution (C15) -/

/-- The body of `castOrThrow` depends on the casts made by the resolver only
through the cast of `e` to the nested target. -/
theorem castWith_congr (reg : logic.Registry) (e : Expression) (t : GwType)
    (cast cast' : Expression → GwType → Outcome Expression)
    (h : ∀ p, nestedTarget reg e t = some p → cast e p = cast' e p) :
    castWith (retrieveWith cast reg) e t = castWith (retrieveWith cast' reg) e t := by
  unfold castWith
  cases hi : castableImplicitly e.type t with
  | true => rfl
  | false =>
    cases hx : castableExplicitly e.type t with
    | false => rfl
    | true =>
      simp only [Bool.false_eq_true, if_false, if_true]
      cases hconv : conversionName t with
      | none => rfl
      | some functionName =>
        simp only
        unfold retrieveWith
        cases hreg : reg functionName with
        | none => rfl
        | some logicFiles =>
          simp only
          cases hsel : selectLogicFile [e] logicFiles none with
          | correct f => rfl
          | notFound => rfl
          | correctable f =>
            simp only
            cases hargs : f.argumentTypes with
            | nil => rfl
            | cons p ps =>
              have hp : nestedTarget reg e t = some p := by
                simp [nestedTarget, hi, hx, hconv, hreg, hsel, hargs]
              simp only [castArguments]
              rw [h p hp]

/-- When the nested cast diverges, so does the cast. -/
theorem castWith_diverged_of_nested (reg : logic.Registry) (e : Expression) (t p : GwType)
    (cast : Expression → GwType → Outcome Expression)
    (hp : nestedTarget reg e t = some p) (hd : cast e p = .diverged) :
    castWith (retrieveWith cast reg) e t = .diverged := by
  unfold nestedTarget at hp
  unfold castWith
  cases hi : castableImplicitly e.type t with
  | true => rw [hi] at hp; simp at hp
  | false =>
    cases hx : castableExplicitly e.type t with
    | false => rw [hi, hx] at hp; simp at hp
    | true =>
      rw [hi, hx] at hp
      simp only [Bool.false_eq_true, if_false, if_true] at hp ⊢
      cases hconv : conversionName t with
      | none => rw [hconv] at hp; cases hp
      | some functionName =>
        rw [hconv] at hp
        simp only at hp ⊢
        unfold retrieveWith
        cases hreg : reg functionName with
        | none => rw [hreg] at hp; cases hp
        | some logicFiles =>
          rw [hreg] at hp
          simp only at hp ⊢
          cases hsel : selectLogicFile [e] logicFiles none with
          | correct f => rw [hsel] at hp; cases hp
          | notFound => rw [hsel] at hp; cases hp
          | correctable f =>
            rw [hsel] at hp
            simp only at hp ⊢
            cases hargs : f.argumentTypes with
            | nil => rw [hargs] at hp; cases hp
            | cons q qs =>
              rw [hargs] at hp
              simp only [List.head?_cons, Option.some.injEq] at hp
              subst hp
              simp only [castArguments]
              rw [hd]

/-- Without a nested target the cast does not diverge. -/
theorem castWith_ne_diverged_of_no_nested (reg : logic.Registry) (e : Expression)
    (t : GwType) (cast : Expression → GwType → Outcome Expression)
    (hp : nestedTarget reg e t = none) :
    castWith (retrieveWith cast reg) e t ≠ .diverged := by
  unfold nestedTarget at hp
  unfold castWith
  cases hi : castableImplicitly e.type t with
  | true => simp
  | false =>
    cases hx : castableExplicitly e.type t with
    | false => simp
    | true =>
      rw [hi, hx] at hp
      simp only [Bool.false_eq_true, if_false, if_true] at hp ⊢
      cases hconv : conversionName t with
      | none => simp
      | some functionName =>
        rw [hconv] at hp
        simp only at hp ⊢
        unfold retrieveWith
        cases hreg : reg functionName with
        | none => simp
        | some logicFiles =>
          rw [hreg] at hp
          simp only at hp ⊢
          cases hsel : selectLogicFile [e] logicFiles none with
          | correct f => simp
          | notFound => simp
          | correctable f =>
            rw [hsel] at hp
            simp only at hp ⊢
            cases hargs : f.argumentTypes with
            | nil => simp [castArguments]
            | cons q qs => rw [hargs] at hp; simp at hp

/-- A nested target and the target it comes from are targets of explicit casts,
and the nested target is the parameter of a conversion signature. -/
theorem nestedTarget_some (reg : logic.Registry) (e : Expression) (t p : GwType)
    (hp : nestedTarget reg e t = some p) :
    (t = .INT ∨ t = .FLOAT) ∧ (p = .INT ∨ p = .FLOAT) ∧
    castableImplicitly e.type t = false ∧ castableExplicitly e.type t = true ∧
    ∃ functionName logicFiles f,
      (functionName = "cint" ∨ functionName = "csng") ∧
      reg functionName = some logicFiles ∧ f ∈ logicFiles ∧ f.argumentTypes = [p] := by
  unfold nestedTarget at hp
  cases hi : castableImplicitly e.type t with
  | true => rw [hi] at hp; simp at hp
  | false =>
    cases hx : castableExplicitly e.type t with
    | false => rw [hi, hx] at hp; simp at hp
    | true =>
      rw [hi, hx] at hp
      simp only [Bool.false_eq_true, if_false, if_true] at hp
      have ht := conversionName_of_castableExplicitly e.type t hx
      cases hconv : conversionName t with
      | none => rw [hconv] at hp; cases hp
      | some functionName =>
        rw [hconv] at hp
        simp only at hp
        have hname : functionName = "cint" ∨ functionName = "csng" := by
          rcases ht with ⟨_, hc⟩ | ⟨_, hc⟩
          · rw [hconv] at hc; exact Or.inl (Option.some.inj hc)
          · rw [hconv] at hc; exact Or.inr (Option.some.inj hc)
        cases hreg : reg functionName with
        | none => rw [hreg] at hp; cases hp
        | some logicFiles =>
          rw [hreg] at hp
          simp only at hp
          cases hsel : selectLogicFile [e] logicFiles none with
          | correct f => rw [hsel] at hp; cases hp
          | notFound => rw [hsel] at hp; cases hp
          | correctable f =>
            rw [hsel] at hp
            simp only at hp
            rcases (selectLogicFile_sound [e] logicFiles none).2.1 f hsel with
              hc | ⟨hmem, hex, hk⟩
            · cases hc
            · have hone : ∃ q, f.argumentTypes = [q] := by
                simp only [isCorrectableMatch, Bool.and_eq_true, decide_eq_true_eq] at hk
                exact List.length_eq_one.mp hk.1
              obtain ⟨q, hq⟩ := hone
              rw [hq] at hp
              simp only [List.head?_cons, Option.some.injEq] at hp
              subst hp
              have himp : castableImplicitly e.type q = false := by
                simpa [isExactMatch, hq] using hex
              have hexp : castableExplicitly e.type q = true := by
                simpa [isCorrectableMatch, hq, himp] using hk
              refine ⟨?_, ?_, rfl, rfl, functionName, logicFiles, f, hname, hreg, hmem, hq⟩
              · rcases ht with ⟨h1, _⟩ | ⟨h1, _⟩
                · exact Or.inl h1
                · exact Or.inr h1
              · rcases conversionName_of_castableExplicitly e.type q hexp with
                  ⟨h1, _⟩ | ⟨h1, _⟩
                · exact Or.inl h1
                · exact Or.inr h1

/-- A set of targets closed under `nestedTarget` diverges at every fuel. -/
theorem castOrThrow_diverged_of_closed (reg : logic.Registry) (e : Expression)
    (X : GwType → Prop)
    (hclosed : ∀ x, X x → ∃ y, X y ∧ nestedTarget reg e x = some y) :
    ∀ (fuel : Nat) (x : GwType), X x → castOrThrow reg fuel e x = .diverged := by
  intro fuel
  induction fuel with
  | zero =>
    intro x hx
    obtain ⟨y, _, hy⟩ := hclosed x hx
    rw [castOrThrow_zero]
    obtain ⟨_, _, hi, hex, _⟩ := nestedTarget_some reg e x y hy
    unfold castWith
    rw [hi, hex]
    rcases conversionName_of_castableExplicitly e.type x hex with ⟨_, hc⟩ | ⟨_, hc⟩ <;>
      (rw [hc]; rfl)
  | succ n ih =>
    intro x hx
    obtain ⟨y, hXy, hy⟩ := hclosed x hx
    rw [castOrThrow_succ]
    exact castWith_diverged_of_nested reg e x y _ hy (ih y hXy)

/-- The outcome of a cast is the same at every fuel from 2 on. -/
theorem castOrThrow_stable (reg : logic.Registry) (n : Nat) (e : Expression) (t : GwType) :
    castOrThrow reg (n + 2) e t = castOrThrow reg 2 e t := by
  cases h1 : nestedTarget reg e t with
  | none =>
    rw [castOrThrow_succ, castOrThrow_succ]
    apply castWith_congr
    intro p hp
    rw [h1] at hp
    cases hp
  | some p =>
    cases h2 : nestedTarget reg e p with
    | none =>
      rw [castOrThrow_succ, castOrThrow_succ reg 1]
      apply castWith_congr
      intro p' hp'
      rw [h1] at hp'
      cases hp'
      rw [castOrThrow_succ, castOrThrow_succ reg 0]
      apply castWith_congr
      intro q hq
      rw [h2] at hq
      cases hq
    | some q =>
      obtain ⟨ht, hp, _⟩ := nestedTarget_some reg e t p h1
      obtain ⟨_, hq, _⟩ := nestedTarget_some reg e p q h2
      have hclosed : ∀ x, (x = t ∨ x = p) →
          ∃ y, (y = t ∨ y = p) ∧ nestedTarget reg e x = some y := by
        intro x hx
        rcases hx with rfl | rfl
        · exact ⟨p, Or.inr rfl, h1⟩
        · refine ⟨q, ?_, h2⟩
          by_cases hxt : x = t
          · subst hxt
            rw [h1] at h2
            exact Or.inr (Option.some.inj h2).symm
          · rcases ht with rfl | rfl <;> rcases hp with rfl | rfl <;>
              rcases hq with rfl | rfl <;> simp at hxt ⊢
      rw [castOrThrow_diverged_of_closed reg e _ hclosed (n + 2) t (Or.inl rfl),
        castOrThrow_diverged_of_closed reg e _ hclosed 2 t (Or.inl rfl)]

/-- A divergence of the argument-casting loop is the divergence of a cast. -/
theorem castArguments_diverged (cast : Expression → GwType → Outcome Expression)
    (argumentList : List Expression) (argumentTypes : List GwType)
    (h : castArguments cast argumentList argumentTypes = .diverged) :
    ∃ pos ∈ argumentList.zip argumentTypes, cast pos.1 pos.2 = .diverged := by
  induction argumentList generalizing argumentTypes with
  | nil => simp [castArguments] at h
  | cons a rest ih =>
    cases argumentTypes with
    | nil => simp [castArguments] at h
    | cons p ps =>
      simp only [castArguments] at h
      cases hc : cast a p with
      | returned a' =>
        rw [hc] at h
        simp only at h
        cases hr : castArguments cast rest ps with
        | returned rest' => rw [hr] at h; cases h
        | thrown e' => rw [hr] at h; cases h
        | diverged =>
          obtain ⟨pos, hpos, hd⟩ := ih ps hr
          exact ⟨pos, by simp [hpos], hd⟩
        | aborted => rw [hr] at h; cases h
      | thrown e' => rw [hc] at h; cases h
      | diverged => exact ⟨(a, p), by simp, hc⟩
      | aborted => rw [hc] at h; cases h

/-- A divergence of the resolver body is the divergence of a cast. -/
theorem retrieveWith_diverged (cast : Expression → GwType → Outcome Expression)
    (reg : logic.Registry) (name : String) (argumentList : List Expression)
    (h : retrieveWith cast reg name argumentList = .diverged) :
    ∃ e p, cast e p = .diverged := by
  unfold retrieveWith at h
  cases hreg : reg name with
  | none => rw [hreg] at h; cases h
  | some logicFiles =>
    rw [hreg] at h
    simp only at h
    cases hsel : selectLogicFile argumentList logicFiles none with
    | correct f => rw [hsel] at h; cases h
    | correctable f =>
      rw [hsel] at h
      simp only at h
      cases hcast : castArguments cast argumentList f.argumentTypes with
      | returned casted => rw [hcast] at h; cases h
      | thrown e => rw [hcast] at h; cases h
      | diverged =>
        obtain ⟨pos, _, hd⟩ := castArguments_diverged cast argumentList f.argumentTypes hcast
        exact ⟨pos.1, pos.2, hd⟩
      | aborted => rw [hcast] at h; cases h
    | notFound => rw [hsel] at h; cases h

/-- When no conversion signature takes a target of explicit casts, no cast has a
nested target. -/
theorem nestedTarget_none_of_conversions (reg : logic.Registry)
    (hreg : conversionsTakeNoCastTarget reg) (e : Expression) (t : GwType) :
    nestedTarget reg e t = none := by
  cases h : nestedTarget reg e t with
  | none => rfl
  | some p =>
    obtain ⟨_, hp, _, _, functionName, logicFiles, f, hname, hlook, hmem, hargs⟩ :=
      nestedTarget_some reg e t p h
    obtain ⟨h1, h2⟩ := hreg functionName hname logicFiles hlook f hmem p hargs
    rcases hp with hp | hp
    · exact absurd hp h1
    · exact absurd hp h2

/-- An outcome that is neither a divergence nor an abort is a node or an error. -/
theorem returned_or_thrown {α : Type} (o : Outcome α) (h1 : o ≠ .diverged)
    (h2 : o ≠ .aborted) : (∃ a, o = .returned a) ∨ (∃ err, o = .thrown err) := by
  cases o with
  | returned a => exact Or.inl ⟨a, rfl⟩
  | thrown err => exact Or.inr ⟨err, rfl⟩
  | diverged => exact absurd rfl h1
  | aborted => exact absurd rfl h2

/-- C15 (the claim fails here): with `cint` registered only as `cint(INT) -> INT`,
casting the double constant to `INT` selects that signature as correctable and
casts the same expression to `INT` again, so neither `castOrThrow` nor
`retrieveFunctionExpression` (called for `cint` on that argument) ends, whatever
bound is put on the nesting depth. -/
theorem castOrThrow_recurses_forever :
    nestedTarget regCintTakesInt sampleDouble .INT = some .INT ∧
    (∀ fuel, castOrThrow regCintTakesInt fuel sampleDouble .INT = .diverged) ∧
    (∀ fuel, retrieveFunctionExpression regCintTakesInt fuel "cint" [sampleDouble]
      = .diverged) := by
  have hall : ∀ fuel, castOrThrow regCintTakesInt fuel sampleDouble .INT = .diverged := by
    intro fuel
    induction fuel with
    | zero => rfl
    | succ n ih =>
      rw [castOrThrow_succ]
      exact castWith_diverged_of_nested regCintTakesInt sampleDouble .INT .INT _ rfl ih
  refine ⟨rfl, hall, ?_⟩
  intro fuel
  have hstep : retrieveFunctionExpression regCintTakesInt fuel "cint" [sampleDouble]
      = castOrThrow regCintTakesInt (fuel + 1) sampleDouble .INT := rfl
  rw [hstep]
  exact hall (fuel + 1)

/-- C15 (amended): for every registry, the outcome of `castOrThrow` and of
`retrieveFunctionExpression` is the same for every bound from 2 on put on the
nesting depth of conversion calls: a call either returns a node or throws one of
the four errors within nesting depth 2, or it never ends. And when no one-parameter
signature registered under `cint` or `csng` takes an `INT` or a `FLOAT`, every call
returns a node or throws, with conversion calls nested at most one deep. -/
theorem resolve_and_cast_decided_at_depth_two (reg : logic.Registry) (n : Nat)
    (name : String) (argumentList : List Expression) (e : Expression) (t : GwType) :
    castOrThrow reg (n + 2) e t = castOrThrow reg 2 e t ∧
    retrieveFunctionExpression reg (n + 2) name argumentList
      = retrieveFunctionExpression reg 2 name argumentList ∧
    (conversionsTakeNoCastTarget reg →
      ((∃ r, castOrThrow reg (n + 1) e t = .returned r) ∨
        (∃ err, castOrThrow reg (n + 1) e t = .thrown err)) ∧
      ((∃ r, retrieveFunctionExpression reg (n + 1) name argumentList = .returned r) ∨
        (∃ err, retrieveFunctionExpression reg (n + 1) name argumentList = .thrown err))) := by
  refine ⟨castOrThrow_stable reg n e t, ?_, ?_⟩
  · have hfun : castOrThrow reg (n + 2) = castOrThrow reg 2 := by
      funext e' t'
      exact castOrThrow_stable reg n e' t'
    unfold retrieveFunctionExpression
    rw [hfun]
  · intro hreg
    have hcast : ∀ e' t', castOrThrow reg (n + 1) e' t' ≠ .diverged := by
      intro e' t'
      rw [castOrThrow_succ]
      exact castWith_ne_diverged_of_no_nested reg e' t' _
        (nestedTarget_none_of_conversions reg hreg e' t')
    constructor
    · exact returned_or_thrown _ (hcast e t) (castOrThrow_ne_aborted reg (n + 1) e t)
    · apply returned_or_thrown
      · intro h
        obtain ⟨e', p, hd⟩ := retrieveWith_diverged _ reg name argumentList h
        exact hcast e' p hd
      · intro h
        obtain ⟨e', p, hab⟩ := retrieveWith_aborted _ reg name argumentList h
        exact castOrThrow_ne_aborted reg (n + 1) e' p hab

/-- C15 witness: `regStandard`, whose conversion functions take a `DOUBLE`: the
cast of the double constant to `INT` and the call of `h` on it return at nesting
depth 1. -/
theorem resolve_and_cast_decided_at_depth_two_witness :
    ((∃ r, castOrThrow regStandard 1 sampleDouble .INT = .returned r) ∨
      (∃ err, castOrThrow regStandard 1 sampleDouble .INT = .thrown err)) ∧
    ((∃ r, retrieveFunctionExpression regStandard 1 "h" [sampleDouble] = .returned r) ∨
      (∃ err, retrieveFunctionExpression regStandard 1 "h" [sampleDouble] = .thrown err)) :=
  (resolve_and_cast_decided_at_depth_two regStandard 0 "h" [sampleDouble] sampleDouble
    .INT).2.2 (by
      intro functionName hname logicFiles hlook f hmem p hargs
      rcases hname with rfl | rfl
      · have hc : regStandard "cint" = some [sigCint_double] := rfl
        rw [hc] at hlook
        cases hlook
        rw [List.mem_singleton] at hmem
        subst hmem
        cases hargs
        exact ⟨by decide, by decide⟩
      · have hc : regStandard "csng" = some [sigCsng_double] := rfl
        rw [hc] at hlook
        cases hlook
        rw [List.mem_singleton] at hmem
        subst hmem
        cases hargs
        exact ⟨by decide, by decide⟩)

end ast
